import Mathlib

/-!
# go-database: a file-per-record store

A shallow embedding of `src/main.go`.  The Go program keeps every record in
a file `<base>/<collection>/<resource>.json`; its operations are `Write`,
`Read`, `ReadAll`, `Delete`, the lock registry `getOrCreateMutex` and the
path resolver `stat`.

The operating system is modelled by an explicit filesystem state that is
threaded through every operation.  Paths are kept in the form that
`filepath.Clean` produces: a flag telling whether the path is rooted and the
list of its components.
-/

namespace GoDatabase

/-! ## Paths (`path/filepath`) -/

/-- File contents. -/
abbrev Bytes := List Nat

/-- The value of a cleaned path string: `abs` tells whether it starts with a
separator, `comps` are the components between separators.  The strings `.`
and `/` are the two paths without components. -/
structure Path where
  abs : Bool
  comps : List String
deriving DecidableEq, Repr

/-- Cut a string at every separator `/`. -/
def splitSlash : List Char → List (List Char)
  | [] => [[]]
  | c :: cs =>
    if c = '/' then [] :: splitSlash cs
    else
      match splitSlash cs with
      | [] => [[c]]
      | w :: ws => (c :: w) :: ws

/-- The components of a path string, empty ones included. -/
def components (s : String) : List String :=
  (splitSlash s.data).map String.mk

/-- Whether a path string is rooted. -/
def isAbs (s : String) : Bool :=
  match s.data with
  | c :: _ => decide (c = '/')
  | [] => false

/-- The loop of `filepath.Clean` over the components: empty components and
`.` are dropped, `..` cancels the component before it, is dropped at the
root and is kept at the start of a relative path.  `st` is the output so
far, last component first. -/
def cleanAux (rooted : Bool) : List String → List String → List String
  | st, [] => st.reverse
  | st, c :: cs =>
    if c = "" ∨ c = "." then cleanAux rooted st cs
    else if c = ".." then
      match st with
      | [] => if rooted then cleanAux rooted [] cs else cleanAux rooted [".."] cs
      | top :: rest =>
        if top = ".." then cleanAux rooted (".." :: top :: rest) cs
        else cleanAux rooted rest cs
    else cleanAux rooted (c :: st) cs

/-- The function `filepath.Clean` on a rootedness flag and raw components. -/
def clean (rooted : Bool) (raw : List String) : Path :=
  ⟨rooted, cleanAux rooted [] raw⟩

/-- The call `filepath.Clean(dir)` on a string; the empty string gives `.`. -/
def cleanString (s : String) : Path :=
  clean (isAbs s) (components s)

/-- The call `filepath.Join(p, s₁, …, sₙ)` whose first element is a cleaned,
hence non-empty, path: the elements are glued with separators and the
result is cleaned.  Empty elements contribute an empty component, which
`Clean` drops, exactly as `Join` skips them. -/
def Path.join (p : Path) (elems : List String) : Path :=
  clean p.abs (p.comps ++ (elems.map components).flatten)

/-- The call `filepath.Join(collection, resource)` of two strings: `none`
stands for the empty string, returned when both are empty; otherwise the
result is rooted when its first non-empty element is. -/
def joinNames (c r : String) : Option Path :=
  if c = "" ∧ r = "" then none
  else some (clean (if c = "" then isAbs r else isAbs c) (components c ++ components r))

/-- The call `filepath.Join(d.dir, path)` with `path` a result of
`joinNames`: an empty `path` is skipped, a cleaned one is glued on (its
leading separator, if any, collapses with the glue). -/
def Path.joinPath (p : Path) : Option Path → Path
  | none => clean p.abs p.comps
  | some q => clean p.abs (p.comps ++ q.comps)

/-- String concatenation `path + ext` on a cleaned path, for an extension
without separator: the last component grows; `.` becomes the relative name
`.ext` prefixed by the dot, and `/` becomes `/ext`. -/
def Path.addExt (p : Path) (ext : String) : Path :=
  match p.comps.reverse with
  | [] => if p.abs then ⟨true, [ext]⟩ else ⟨false, ["." ++ ext]⟩
  | last :: init => ⟨p.abs, (init.reverse ++ [last ++ ext])⟩

/-- Whether `p` is `q` or an ancestor of `q`. -/
def Path.isPrefixOf (p q : Path) : Bool :=
  p.abs == q.abs && p.comps.isPrefixOf q.comps

/-- The directory part of a path with at least one component. -/
def Path.parent (p : Path) : Path := ⟨p.abs, p.comps.dropLast⟩

/-- The last component (`file.Name()` of the entry at that path). -/
def Path.name (p : Path) : String := p.comps.getLast?.getD ""

/-- The path of the entry `name` in directory `p`. -/
def Path.child (p : Path) (name : String) : Path := ⟨p.abs, p.comps ++ [name]⟩

/-! ## The filesystem (`os`) -/

/-- A filesystem entry: a regular file with its bytes, or a directory. -/
inductive Node where
  | file (data : Bytes)
  | dir
deriving DecidableEq, Repr

/-- The filesystem: the entries by path, the first entry of a path counting.
The paths without components (`.` and `/`) always exist as directories.

The state describes two trees: the one below the working directory (relative
paths) and the one below the root (rooted paths).  Inside a tree an entry has
one spelling, the path whose components are plain names (`Path.inTree`).  A
relative path that starts with `..` leaves the tree: the state does not know
where the working directory hangs in its parent, so such a path, like a
rooted spelling of an entry of the relative tree, is kept as a key of its own
and is not related to the entries it names on a real system.  Statements
about removal and listing are therefore made for paths inside a tree. -/
abbrev FS := List (Path × Node)

/-- Error numbers of the operating system. -/
inductive Errno where
  | ENOENT
  | ENOTDIR
  | EISDIR
  | EEXIST
  | EINVAL
  | EBUSY
  | EACCES
  | EIO
deriving DecidableEq, Repr

/-- The predicate `os.IsNotExist`. -/
def isNotExist (e : Errno) : Bool := e == Errno.ENOENT

/-- The mode bits that `Delete` looks at. -/
inductive Mode where
  | dir
  | regular
  | other
deriving DecidableEq, Repr

/-- The part of `os.FileInfo` that the program uses. -/
structure FileInfo where
  name : String
  mode : Mode
deriving DecidableEq, Repr

/-- The method `fi.Mode().IsDir()`. -/
def FileInfo.isDir (fi : FileInfo) : Bool := fi.mode == Mode.dir

/-- The method `fi.Mode().IsRegular()`. -/
def FileInfo.isRegular (fi : FileInfo) : Bool := fi.mode == Mode.regular

/-- The first entry stored for a path. -/
def FS.lookup : FS → Path → Option Node
  | [], _ => none
  | (q, n) :: rest, p => if q = p then some n else FS.lookup rest p

/-- The entry at a path; `.` and `/` are always directories. -/
def FS.get (fs : FS) (p : Path) : Option Node :=
  if p.comps = [] then some Node.dir else fs.lookup p

/-- The filesystem without the entry at `p`. -/
def FS.erase (fs : FS) (p : Path) : FS := fs.filter (fun e => decide (e.1 ≠ p))

/-- The filesystem with the entry at `p` replaced by `n`. -/
def FS.set (fs : FS) (p : Path) (n : Node) : FS := (p, n) :: fs.erase p

/-- The filesystem without `p` and everything beneath it. -/
def FS.removeTree (fs : FS) (p : Path) : FS := fs.filter (fun e => !p.isPrefixOf e.1)

/-- The proper ancestors of a path, nearest to the root first. -/
def Path.ancestors (p : Path) : List Path :=
  p.comps.inits.dropLast.map (fun cs => ⟨p.abs, cs⟩)

/-- Path resolution up to the last component: every proper ancestor has to
be an existing directory. -/
def walkDirs (fs : FS) : List Path → Except Errno Unit
  | [] => .ok ()
  | q :: qs =>
    match fs.get q with
    | none => .error Errno.ENOENT
    | some (Node.file _) => .error Errno.ENOTDIR
    | some Node.dir => walkDirs fs qs

/-- The metadata of an entry. -/
def infoOf (p : Path) : Node → FileInfo
  | Node.file _ => ⟨p.name, Mode.regular⟩
  | Node.dir => ⟨p.name, Mode.dir⟩

/-- The call `os.Stat(p)`, for a path inside a tree.  For a path that starts
with `..` the answer is read off the entries spelled that way, which is not
what a real system answers (there `..` always exists). -/
def osStat (fs : FS) (p : Path) : Except Errno FileInfo :=
  match walkDirs fs p.ancestors with
  | .error e => .error e
  | .ok _ =>
    match fs.get p with
    | none => .error Errno.ENOENT
    | some n => .ok (infoOf p n)

/-- The call `os.ReadFile(p)`. -/
def osReadFile (fs : FS) (p : Path) : Except Errno Bytes :=
  match walkDirs fs p.ancestors with
  | .error e => .error e
  | .ok _ =>
    match fs.get p with
    | none => .error Errno.ENOENT
    | some Node.dir => .error Errno.EISDIR
    | some (Node.file b) => .ok b

/-- The call `os.WriteFile(p, b, 0644)`: the file is created or truncated
and then holds `b`; the filesystem is unchanged when the call fails. -/
def osWriteFile (fs : FS) (p : Path) (b : Bytes) : Except Errno FS :=
  match walkDirs fs p.ancestors with
  | .error e => .error e
  | .ok _ =>
    match fs.get p with
    | some Node.dir => .error Errno.EISDIR
    | _ => .ok (fs.set p (Node.file b))

/-- The call `os.Mkdir(p, 0755)`. -/
def osMkdir (fs : FS) (p : Path) : Except Errno FS :=
  match walkDirs fs p.ancestors with
  | .error e => .error e
  | .ok _ =>
    match fs.get p with
    | some _ => .error Errno.EEXIST
    | none => .ok (fs.set p Node.dir)

/-- The recursion of `os.MkdirAll` on the components of the path, last one
first: an existing directory is success, an existing file is `ENOTDIR`,
otherwise the parent is made first and then the directory itself.  The
filesystem reached is returned also on failure. -/
def mkdirAllRev (abs : Bool) (fs : FS) : List String → Option Errno × FS
  | [] => (none, fs)
  | c :: rest =>
    let p : Path := ⟨abs, (c :: rest).reverse⟩
    match osStat fs p with
    | .ok fi => if fi.isDir then (none, fs) else (some Errno.ENOTDIR, fs)
    | .error _ =>
      match mkdirAllRev abs fs rest with
      | (some e, fs1) => (some e, fs1)
      | (none, fs1) =>
        match osMkdir fs1 p with
        | .ok fs2 => (none, fs2)
        | .error e =>
          match fs1.get p with
          | some Node.dir => (none, fs1)
          | _ => (some e, fs1)

/-- The call `os.MkdirAll(p, 0755)`. -/
def osMkdirAll (fs : FS) (p : Path) : Option Errno × FS :=
  mkdirAllRev p.abs fs p.comps.reverse

/-- The call `os.Rename(src, dst)` for a regular file `src`: it replaces a
file at `dst`, fails on a directory at `dst`, and changes nothing when it
fails. -/
def osRename (fs : FS) (src dst : Path) : Except Errno FS :=
  match walkDirs fs src.ancestors with
  | .error e => .error e
  | .ok _ =>
    match fs.get src with
    | none => .error Errno.ENOENT
    | some Node.dir => .error Errno.EINVAL
    | some (Node.file b) =>
      match walkDirs fs dst.ancestors with
      | .error e => .error e
      | .ok _ =>
        match fs.get dst with
        | some Node.dir => .error Errno.EISDIR
        | _ => if src = dst then .ok fs else .ok ((fs.erase src).set dst (Node.file b))

/-- The call `os.RemoveAll(p)`: `.` is refused with `EINVAL`, the root
cannot be removed itself, a missing path is success.  The entries removed are
those spelled beneath `p`; for a path inside a tree these are the entries
beneath it.  For a path that starts with `..` a real system also removes
what lies beneath it under other spellings (the working directory itself),
which the state cannot express. -/
def osRemoveAll (fs : FS) (p : Path) : Option Errno × FS :=
  if p.comps = [] then
    if p.abs then (some Errno.EBUSY, fs.filter (fun e => !(e.1.abs && e.1.comps ≠ [])))
    else (some Errno.EINVAL, fs)
  else (none, fs.removeTree p)

/-- Byte-wise order of file names. -/
def lexLe : List Char → List Char → Bool
  | [], _ => true
  | _ :: _, [] => false
  | a :: as, b :: bs =>
    if a.toNat < b.toNat then true
    else if b.toNat < a.toNat then false
    else lexLe as bs

/-- The names of the entries directly inside directory `p`. -/
def childNames (fs : FS) (p : Path) : List String :=
  (fs.filter (fun e => decide (e.1.comps ≠ [] ∧ e.1.parent = p))).map (fun e => e.1.name)

/-- The call `os.ReadDir(p)`: the names in the directory, sorted by name.  For
a path inside a tree these are its entries; for a path that starts with `..`
only the entries spelled beneath it are listed, not the working directory
that a real system finds there. -/
def osReadDir (fs : FS) (p : Path) : Except Errno (List String) :=
  match walkDirs fs p.ancestors with
  | .error e => .error e
  | .ok _ =>
    match fs.get p with
    | none => .error Errno.ENOENT
    | some (Node.file _) => .error Errno.ENOTDIR
    | some Node.dir =>
      .ok ((childNames fs p).dedup.insertionSort (fun a b => lexLe a.data b.data = true))

/-! ## The storage engine (`main.go`) -/

/-- The errors the engine returns. -/
inductive Error where
  | missingCollection
  | missingResource
  | unableToFind (path : Option Path)
  | os (e : Errno)
  | codec
deriving DecidableEq, Repr

/-- Whether an error is a not-found error: the not-exist error of the
operating system or the error `Delete` makes when resolution fails. -/
def Error.isNotFound : Error → Bool
  | Error.os e => isNotExist e
  | Error.unableToFind _ => true
  | _ => false

/-- The external codec: `json.MarshalIndent` and `json.Unmarshal`. -/
structure Codec (α : Type) where
  marshalIndent : α → Option Bytes
  unmarshal : Bytes → Option α

/-- The engine: the lock registry (collection name to the address of its
lock) and the base directory. -/
structure Driver where
  mutexes : List (String × Nat)
  dir : Path
deriving DecidableEq, Repr

/-- The engine together with the filesystem it works on. -/
structure World where
  drv : Driver
  fs : FS
deriving DecidableEq, Repr

/-- The map lookup `d.mutexes[collection]`. -/
def lookupMutex : List (String × Nat) → String → Option Nat
  | [], _ => none
  | (k, m) :: rest, c => if k = c then some m else lookupMutex rest c

/-- The allocation `&sync.Mutex{}`: an address no registered lock has. -/
def newMutex (reg : List (String × Nat)) : Nat :=
  (reg.map Prod.snd).foldr max 0 + 1

/-- The method `getOrCreateMutex`. -/
def getOrCreateMutex (d : Driver) (collection : String) : Nat × Driver :=
  match lookupMutex d.mutexes collection with
  | some m => (m, d)
  | none =>
    let m := newMutex d.mutexes
    (m, { d with mutexes := (collection, m) :: d.mutexes })

/-- The body of `stat` over an arbitrary probe standing for `os.Stat`. -/
def statWith (probe : Path → Except Errno FileInfo) (path : Path) : Except Errno FileInfo :=
  match probe path with
  | .ok fi => .ok fi
  | .error e => if isNotExist e then probe (path.addExt ".json") else .error e

/-- The function `stat`: its result and the filesystem after the call. -/
def stat (fs : FS) (path : Path) : Except Errno FileInfo × FS :=
  (statWith (osStat fs) path, fs)

/-- The function `New`. -/
def New (fs : FS) (dir : String) : Driver × Option Error × FS :=
  let dir := cleanString dir
  let driver : Driver := { dir := dir, mutexes := [] }
  match osStat fs dir with
  | .ok _ => (driver, none, fs)
  | .error _ =>
    match osMkdirAll fs dir with
    | (e, fs1) => (driver, e.map Error.os, fs1)

/-- The method `Write`. -/
def Write {α : Type} (codec : Codec α) (w : World) (collection resource : String) (v : α) :
    Option Error × World :=
  if collection = "" then (some Error.missingCollection, w)
  else if resource = "" then (some Error.missingResource, w)
  else
    let drv := (getOrCreateMutex w.drv collection).2
    let dir := w.drv.dir.join [collection]
    let fnlPath := dir.join [resource ++ ".json"]
    let tmpPath := fnlPath.addExt ".tmp"
    match osMkdirAll w.fs dir with
    | (some e, fs1) => (some (Error.os e), ⟨drv, fs1⟩)
    | (none, fs1) =>
      match codec.marshalIndent v with
      | none => (some Error.codec, ⟨drv, fs1⟩)
      | some b =>
        match osWriteFile fs1 tmpPath (b ++ [10]) with
        | .error e => (some (Error.os e), ⟨drv, fs1⟩)
        | .ok fs2 =>
          match osRename fs2 tmpPath fnlPath with
          | .error e => (some (Error.os e), ⟨drv, fs2⟩)
          | .ok fs3 => (none, ⟨drv, fs3⟩)

/-- The method `Read`: the decoded value or the error, and the state after
the call. -/
def Read {α : Type} (codec : Codec α) (w : World) (collection resource : String) :
    Except Error α × World :=
  if collection = "" then (.error Error.missingCollection, w)
  else if resource = "" then (.error Error.missingResource, w)
  else
    let record := w.drv.dir.join [collection, resource]
    match stat w.fs record with
    | (.error e, fs1) => (.error (Error.os e), ⟨w.drv, fs1⟩)
    | (.ok _, fs1) =>
      match osReadFile fs1 (record.addExt ".json") with
      | .error e => (.error (Error.os e), ⟨w.drv, fs1⟩)
      | .ok b =>
        match codec.unmarshal b with
        | none => (.error Error.codec, ⟨w.drv, fs1⟩)
        | some v => (.ok v, ⟨w.drv, fs1⟩)

/-- The loop of `ReadAll` over the directory entries. -/
def readFiles (fs : FS) (dir : Path) : List String → List Bytes → Except Errno (List Bytes)
  | [], records => .ok records
  | name :: files, records =>
    match osReadFile fs (dir.join [name]) with
    | .error e => .error e
    | .ok b => readFiles fs dir files (records ++ [b])

/-- The method `ReadAll`; the error of `os.ReadDir` is dropped and the
listing is then empty. -/
def ReadAll (w : World) (collection : String) : Except Error (List Bytes) × World :=
  if collection = "" then (.error Error.missingCollection, w)
  else
    let dir := w.drv.dir.join [collection]
    match stat w.fs dir with
    | (.error e, fs1) => (.error (Error.os e), ⟨w.drv, fs1⟩)
    | (.ok _, fs1) =>
      let files := match osReadDir fs1 dir with
        | .ok names => names
        | .error _ => []
      match readFiles fs1 dir files [] with
      | .error e => (.error (Error.os e), ⟨w.drv, fs1⟩)
      | .ok records => (.ok records, ⟨w.drv, fs1⟩)

/-- The method `Delete`. -/
def Delete (w : World) (collection resource : String) : Option Error × World :=
  let path := joinNames collection resource
  let drv := (getOrCreateMutex w.drv collection).2
  let dir := w.drv.dir.joinPath path
  match stat w.fs dir with
  | (.error _, fs1) => (some (Error.unableToFind path), ⟨drv, fs1⟩)
  | (.ok fi, fs1) =>
    if fi.isDir then
      match osRemoveAll fs1 dir with
      | (e, fs2) => (e.map Error.os, ⟨drv, fs2⟩)
    else if fi.isRegular then
      match osRemoveAll fs1 (dir.addExt ".json") with
      | (e, fs2) => (e.map Error.os, ⟨drv, fs2⟩)
    else (none, ⟨drv, fs1⟩)

/-- One call of the engine's interface. -/
inductive Op (α : Type) where
  | write (collection resource : String) (v : α)
  | read (collection resource : String)
  | readAll (collection : String)
  | delete (collection resource : String)

/-- The state after one call. -/
def step {α : Type} (codec : Codec α) (w : World) : Op α → World
  | Op.write c r v => (Write codec w c r v).2
  | Op.read c r => (Read codec w c r).2
  | Op.readAll c => (ReadAll w c).2
  | Op.delete c r => (Delete w c r).2

/-- The state after a sequence of calls. -/
def run {α : Type} (codec : Codec α) (w : World) (ops : List (Op α)) : World :=
  ops.foldl (step codec) w

deriving instance DecidableEq for Except

/-- A codec on numbers used in the examples: the value is stored as one
byte, and decoding accepts that byte followed by a newline. -/
def natCodec : Codec Nat :=
  ⟨fun v => some [v], fun b => match b with
    | [v, 10] => some v
    | _ => none⟩

/-- The engine opened on the existing, empty base directory `db`. -/
def w0 : World := ⟨⟨[], cleanString "db"⟩, [(cleanString "db", Node.dir)]⟩

/-- The bytes of the regular file at a path, if there is one. -/
def content (fs : FS) (p : Path) : Option Bytes :=
  match fs.get p with
  | some (Node.file b) => some b
  | _ => none

/-- The filesystems `os.MkdirAll` passes through: the directories are made
one after the other, nearest to the root first. -/
def mkdirAllTrace (abs : Bool) (fs : FS) : List String → List FS
  | [] => [fs]
  | c :: rest => mkdirAllTrace abs fs rest ++ [(mkdirAllRev abs fs (c :: rest)).2]

/-- The filesystems `os.WriteFile(p, b)` passes through: the file is created
or truncated and then holds a growing initial part of `b`. -/
def partialWrites (fs : FS) (p : Path) (b : Bytes) : List FS :=
  match osWriteFile fs p b with
  | .error _ => []
  | .ok _ => (List.range (b.length + 1)).map (fun k => fs.set p (Node.file (b.take k)))

/-- Every filesystem in which a `Write` can be interrupted, from the one
before the call to the one it returns with: the steps of `os.MkdirAll`, of
`os.WriteFile` on the temporary file, and the rename. -/
def writeTrace {α : Type} (codec : Codec α) (w : World) (collection resource : String)
    (v : α) : List FS :=
  if collection = "" then [w.fs]
  else if resource = "" then [w.fs]
  else
    let dir := w.drv.dir.join [collection]
    let fnlPath := dir.join [resource ++ ".json"]
    let tmpPath := fnlPath.addExt ".tmp"
    mkdirAllTrace dir.abs w.fs dir.comps.reverse ++
      match osMkdirAll w.fs dir with
      | (some _, _) => []
      | (none, fs1) =>
        match codec.marshalIndent v with
        | none => []
        | some b =>
          partialWrites fs1 tmpPath (b ++ [10]) ++
            match osWriteFile fs1 tmpPath (b ++ [10]) with
            | .error _ => []
            | .ok fs2 =>
              match osRename fs2 tmpPath fnlPath with
              | .error _ => []
              | .ok fs3 => [fs3]

/-- The bytes `Write` stores for a value: its encoding and one newline. -/
def encode {α : Type} (codec : Codec α) (v : α) : Option Bytes :=
  (codec.marshalIndent v).map (fun b => b ++ [10])

/-- A sequence of calls `Write(collection, r, v)`, all of them successful. -/
def writeAll {α : Type} (codec : Codec α) (w : World) (collection : String) :
    List (String × α) → Option World
  | [] => some w
  | (r, v) :: rest =>
    match Write codec w collection r v with
    | (none, w1) => writeAll codec w1 collection rest
    | (some _, _) => none

/-- The collection directory `dir` holds the records `ws` and nothing else:
every record has its file with its bytes, and every entry beneath the
directory is the file of a record. -/
def Populated {α : Type} (codec : Codec α) (fs : FS) (dir : Path) (ws : List (String × α)) :
    Prop :=
  (∀ e ∈ ws, ∃ b, encode codec e.2 = some b ∧
    fs.get (dir.child (e.1 ++ ".json")) = some (Node.file b)) ∧
  (∀ q, dir.isPrefixOf q = true → q ≠ dir → fs.get q ≠ none →
    ∃ e ∈ ws, q = dir.child (e.1 ++ ".json"))

/-- Nothing lies beneath the directory `dir` (which may itself exist). -/
def emptyCollection (fs : FS) (dir : Path) : Bool :=
  fs.all (fun e => !dir.isPrefixOf e.1 || decide (e.1 = dir))

/-- A plain name: a non-empty string without separator other than `.` and
`..`, that is a single path component that `filepath.Clean` keeps. -/
def plainName (s : String) : Bool :=
  !s.data.contains '/' && decide (s ≠ "") && decide (s ≠ ".") && decide (s ≠ "..")

/-- A path inside the tree of the working directory or of the root: every
component is a plain name, so the path does not start with `..` and is the
one spelling of the entry it names. -/
def Path.inTree (p : Path) : Bool := p.comps.all plainName

/-- The output stack of the loop of `filepath.Clean`, last component first;
`cleanAux` is its reverse. -/
def cleanStack (rooted : Bool) : List String → List String → List String
  | st, [] => st
  | st, c :: cs =>
    if c = "" ∨ c = "." then cleanStack rooted st cs
    else if c = ".." then
      match st with
      | [] => if rooted then cleanStack rooted [] cs else cleanStack rooted [".."] cs
      | top :: rest =>
        if top = ".." then cleanStack rooted (".." :: top :: rest) cs
        else cleanStack rooted rest cs
    else cleanStack rooted (c :: st) cs

/-- The shape of an output stack of `filepath.Clean`: no empty component, no
`.`, and a `..` only on a relative path with nothing but `..` before it. -/
def goodStack (rooted : Bool) : List String → Prop
  | [] => True
  | top :: rest =>
    top ≠ "" ∧ top ≠ "." ∧ (top = ".." → rooted = false ∧ ∀ y ∈ rest.head?, y = "..") ∧
      goodStack rooted rest

/-! # Properties -/

/-! ## Paths -/

theorem cleanAux_eq_reverse (rooted : Bool) (raw st : List String) :
    cleanAux rooted st raw = (cleanStack rooted st raw).reverse := by
  induction raw generalizing st with
  | nil => rfl
  | cons c cs ih =>
    simp only [cleanAux, cleanStack]
    split
    · exact ih _
    · split
      · cases st with
        | nil =>
          cases rooted <;> simp [ih]
        | cons top rest =>
          simp only
          split <;> exact ih _
      · exact ih _

theorem cleanStack_append (rooted : Bool) (a b st : List String) :
    cleanStack rooted st (a ++ b) = cleanStack rooted (cleanStack rooted st a) b := by
  induction a generalizing st with
  | nil => rfl
  | cons c cs ih =>
    simp only [List.cons_append, cleanStack]
    split
    · exact ih _
    · split
      · cases st with
        | nil => cases rooted <;> simp [ih]
        | cons top rest =>
          simp only
          split <;> exact ih _
      · exact ih _

theorem goodStack_cleanStack (rooted : Bool) (raw st : List String) (h : goodStack rooted st) :
    goodStack rooted (cleanStack rooted st raw) := by
  induction raw generalizing st with
  | nil => exact h
  | cons c cs ih =>
    simp only [cleanStack]
    split
    · exact ih _ h
    · rename_i hc
      split
      · cases st with
        | nil =>
          cases rooted
          · apply ih
            simp [goodStack]
          · simpa using ih [] h
        | cons top rest =>
          simp only
          split
          · rename_i htop
            apply ih
            obtain ⟨h1, h2, h3, h4⟩ := h
            refine ⟨by decide, by decide, fun _ => ⟨(h3 htop).1, ?_⟩, h1, h2, h3, h4⟩
            simp [htop]
          · exact ih _ h.2.2.2
      · rename_i hdd
        apply ih
        refine ⟨fun e => hc (Or.inl e), fun e => hc (Or.inr e), fun e => absurd e hdd, h⟩

theorem cleanStack_reverse_good (rooted : Bool) (s : List String) (h : goodStack rooted s) :
    cleanStack rooted [] s.reverse = s := by
  induction s with
  | nil => rfl
  | cons top rest ih =>
    obtain ⟨h1, h2, h3, h4⟩ := h
    rw [List.reverse_cons, cleanStack_append, ih h4]
    simp only [cleanStack, h1, h2, or_self, if_false]
    by_cases htop : top = ".."
    · obtain ⟨hr, hy⟩ := h3 htop
      subst htop
      cases rest with
      | nil => simp [hr]
      | cons y ys =>
        have : y = ".." := hy y (by simp)
        simp [this]
    · simp [htop]

/-- Cleaning absorbs an earlier cleaning of the front part. -/
theorem cleanAux_absorb (rooted : Bool) (raw xs : List String) :
    cleanAux rooted [] (cleanAux rooted [] raw ++ xs) = cleanAux rooted [] (raw ++ xs) := by
  have hg : goodStack rooted (cleanStack rooted [] raw) :=
    goodStack_cleanStack rooted raw [] trivial
  rw [cleanAux_eq_reverse, cleanAux_eq_reverse, cleanAux_eq_reverse, cleanStack_append,
    cleanStack_reverse_good rooted _ hg, ← cleanStack_append]

/-- A component that is kept is appended to the cleaned front part. -/
theorem cleanAux_snoc (rooted : Bool) (raw st : List String) (x : String)
    (h1 : x ≠ "") (h2 : x ≠ ".") (h3 : x ≠ "..") :
    cleanAux rooted st (raw ++ [x]) = cleanAux rooted st raw ++ [x] := by
  rw [cleanAux_eq_reverse, cleanAux_eq_reverse, cleanStack_append]
  simp [cleanStack, h1, h2, h3]

/-- Cleaning a relative path first and gluing it on afterwards gives the same
stack as gluing the raw components on. -/
theorem cleanStack_inner (rooted : Bool) (xs st : List String) :
    cleanStack rooted st (cleanStack false [] xs).reverse = cleanStack rooted st xs := by
  induction xs using List.reverseRecOn with
  | nil => rfl
  | append_singleton xs c ih =>
    have hg : goodStack false (cleanStack false [] xs) :=
      goodStack_cleanStack false xs [] trivial
    rw [cleanStack_append false xs [c], cleanStack_append rooted xs [c], ← ih]
    generalize cleanStack false [] xs = S at hg
    by_cases hc : c = "" ∨ c = "."
    · simp [cleanStack, hc]
    · by_cases hdd : c = ".."
      · subst hdd
        cases S with
        | nil => simp [cleanStack]
        | cons top rest =>
          by_cases htop : top = ".."
          · subst htop
            simp only [cleanStack, hc, if_false, if_true]
            rw [List.reverse_cons, cleanStack_append]
            rfl
          · obtain ⟨h1, h2, -, -⟩ := hg
            simp only [cleanStack, hc, if_false, if_true, htop]
            rw [List.reverse_cons, cleanStack_append]
            simp [cleanStack, h1, h2, htop]
      · simp only [cleanStack, hc, hdd, if_false]
        rw [List.reverse_cons, cleanStack_append]
        simp [cleanStack, hc, hdd]

theorem splitSlash_noSlash (l : List Char) (h : '/' ∉ l) : splitSlash l = [l] := by
  induction l with
  | nil => rfl
  | cons c cs ih =>
    simp only [List.mem_cons, not_or] at h
    have hc : c ≠ '/' := fun e => h.1 e.symm
    simp [splitSlash, hc, ih h.2]

theorem components_noSlash (s : String) (h : s.data.contains '/' = false) :
    components s = [s] := by
  have h' : '/' ∉ s.data := by simpa using h
  simp [components, splitSlash_noSlash _ h']

theorem components_empty : components "" = [""] := by decide

theorem plainName_spec {s : String} (h : plainName s = true) :
    s.data.contains '/' = false ∧ s ≠ "" ∧ s ≠ "." ∧ s ≠ ".." := by
  simp only [plainName, Bool.and_eq_true, Bool.not_eq_true', decide_eq_true_eq] at h
  exact ⟨h.1.1.1, h.1.1.2, h.1.2, h.2⟩

theorem components_plain {s : String} (h : plainName s = true) : components s = [s] :=
  components_noSlash s (plainName_spec h).1

/-- A name with the extension appended is a plain name when the name has no
separator. -/
theorem plainName_addExt (s ext : String) (h : s.data.contains '/' = false)
    (he : ext.data.contains '/' = false) (hl : 3 ≤ ext.length) :
    plainName (s ++ ext) = true := by
  have hlen : 3 ≤ (s ++ ext).length := by
    rw [String.length_append]
    omega
  have ne : ∀ t : String, t.length < 3 → s ++ ext ≠ t := by
    intro t ht e
    rw [e] at hlen
    omega
  have hs : (s ++ ext).data.contains '/' = false := by
    have h1 : '/' ∉ s.data := by simpa using h
    have h2 : '/' ∉ ext.data := by simpa using he
    simp [String.data_append, h1, h2]
  simp only [plainName, Bool.and_eq_true, Bool.not_eq_true', decide_eq_true_eq]
  exact ⟨⟨⟨hs, ne "" (by decide)⟩, ne "." (by decide)⟩, ne ".." (by decide)⟩

/-- `Join(p, c, r)` for a plain `r` is the entry `r` of `Join(p, c)`. -/
theorem join_plain (p : Path) (c r : String) (h : plainName r = true) :
    p.join [c, r] = (p.join [c]).child r := by
  obtain ⟨-, h1, h2, h3⟩ := plainName_spec h
  simp only [Path.join, Path.child, clean, List.map_cons, List.map_nil, List.flatten_cons,
    List.flatten_nil, List.append_nil, components_plain h]
  rw [← List.append_assoc, cleanAux_snoc _ _ _ _ h1 h2 h3]

/-- `Join(q, x)` for a cleaned `q` and a plain `x` is the entry `x` of `q`. -/
theorem clean_join_plain (a : Bool) (raw : List String) (x : String) (h : plainName x = true) :
    (clean a raw).join [x] = (clean a raw).child x := by
  obtain ⟨-, h1, h2, h3⟩ := plainName_spec h
  simp only [Path.join, Path.child, clean, List.map_cons, List.map_nil, List.flatten_cons,
    List.flatten_nil, List.append_nil, components_plain h]
  rw [cleanAux_absorb, cleanAux_snoc _ _ _ _ h1 h2 h3]

theorem addExt_child (q : Path) (r ext : String) :
    (q.child r).addExt ext = q.child (r ++ ext) := by
  simp [Path.addExt, Path.child]

/-- For a relative `Join(c, r)`, `Delete` resolves the path `Join(p, c, r)`. -/
theorem joinPath_joinNames (p : Path) (c r : String)
    (h : (if c = "" then isAbs r else isAbs c) = false) :
    p.joinPath (joinNames c r) = p.join [c, r] := by
  unfold joinNames
  split
  · rename_i hcr
    simp only [Path.joinPath, Path.join, clean, hcr.1, hcr.2, List.map_cons, List.map_nil,
      List.flatten_cons, List.flatten_nil, List.append_nil, components_empty]
    rw [cleanAux_eq_reverse, cleanAux_eq_reverse, cleanStack_append]
    simp [cleanStack]
  · simp only [Path.joinPath, Path.join, clean, h, List.map_cons, List.map_nil,
      List.flatten_cons, List.flatten_nil, List.append_nil]
    rw [cleanAux_eq_reverse, cleanAux_eq_reverse, cleanAux_eq_reverse, cleanStack_append,
      cleanStack_inner, ← cleanStack_append]

/-! ## The filesystem -/

theorem lookup_filter_pos (fs : FS) (f : Path × Node → Bool) (q : Path)
    (h : ∀ n, f (q, n) = true) : FS.lookup (fs.filter f) q = FS.lookup fs q := by
  induction fs with
  | nil => rfl
  | cons e rest ih =>
    obtain ⟨k, n⟩ := e
    by_cases hk : k = q
    · subst hk
      simp [List.filter, h, FS.lookup]
    · cases hf : f (k, n) <;> simp [List.filter, hf, FS.lookup, hk, ih]

theorem lookup_filter_neg (fs : FS) (f : Path × Node → Bool) (q : Path)
    (h : ∀ n, f (q, n) = false) : FS.lookup (fs.filter f) q = none := by
  induction fs with
  | nil => rfl
  | cons e rest ih =>
    obtain ⟨k, n⟩ := e
    by_cases hk : k = q
    · subst hk
      simp [List.filter, h, ih]
    · cases hf : f (k, n) <;> simp [List.filter, hf, FS.lookup, hk, ih]

theorem get_erase_ne (fs : FS) (p q : Path) (h : q ≠ p) : (fs.erase p).get q = fs.get q := by
  unfold FS.get FS.erase
  rw [lookup_filter_pos]
  intro n
  simpa using h

theorem get_erase_self (fs : FS) (p : Path) (h : p.comps ≠ []) : (fs.erase p).get p = none := by
  unfold FS.get FS.erase
  rw [lookup_filter_neg, if_neg h]
  intro n
  simp

theorem get_set_ne (fs : FS) (p q : Path) (n : Node) (h : q ≠ p) :
    (fs.set p n).get q = fs.get q := by
  have h1 := get_erase_ne fs p q h
  unfold FS.get at h1 ⊢
  simp only [FS.set, FS.lookup, Ne.symm h, if_false]
  exact h1

theorem get_set_self (fs : FS) (p : Path) (n : Node) (h : p.comps ≠ []) :
    (fs.set p n).get p = some n := by
  simp [FS.get, FS.set, FS.lookup, h]

theorem get_removeTree_out (fs : FS) (p q : Path) (h : p.isPrefixOf q = false) :
    (fs.removeTree p).get q = fs.get q := by
  unfold FS.get FS.removeTree
  rw [lookup_filter_pos]
  intro n
  simp [h]

theorem get_removeTree_in (fs : FS) (p q : Path) (h : p.isPrefixOf q = true) (hq : q.comps ≠ []) :
    (fs.removeTree p).get q = none := by
  unfold FS.get FS.removeTree
  rw [lookup_filter_neg, if_neg hq]
  intro n
  simp [h]

theorem walkDirs_congr (fs fs2 : FS) (l : List Path) (h : ∀ q ∈ l, fs.get q = fs2.get q) :
    walkDirs fs l = walkDirs fs2 l := by
  induction l with
  | nil => rfl
  | cons q qs ih =>
    have hq := h q (by simp)
    have ih := ih (fun x hx => h x (List.mem_cons_of_mem _ hx))
    simp only [walkDirs, hq, ih]

theorem inits_snoc_dropLast (l : List String) (x : String) :
    (l ++ [x]).inits.dropLast = l.inits := by
  rw [List.inits_append]
  simp [List.inits, List.dropLast_concat]

theorem inits_dropLast_snoc (l : List String) : l.inits.dropLast ++ [l] = l.inits := by
  induction l using List.reverseRecOn with
  | nil => rfl
  | append_singleton l x _ =>
    rw [inits_snoc_dropLast, List.inits_append]
    simp [List.inits]

theorem mem_ancestors {p q : Path} (h : q ∈ p.ancestors) :
    q.abs = p.abs ∧ q.comps.length < p.comps.length ∧ q.comps <+: p.comps := by
  simp only [Path.ancestors, List.mem_map] at h
  obtain ⟨cs, hcs, rfl⟩ := h
  have hpre : cs <+: p.comps := (List.mem_inits _ _).1 (List.mem_of_mem_dropLast hcs)
  refine ⟨rfl, ?_, hpre⟩
  obtain ⟨a, l⟩ := p
  induction l using List.reverseRecOn with
  | nil => simp [List.inits] at hcs
  | append_singleton l x _ =>
    simp only [inits_snoc_dropLast] at hcs
    have := ((List.mem_inits _ _).1 hcs).length_le
    simp only [List.length_append, List.length_singleton]
    omega

theorem ancestors_child (d : Path) (x : String) : (d.child x).ancestors = d.ancestors ++ [d] := by
  simp only [Path.ancestors, Path.child, inits_snoc_dropLast]
  conv_lhs => rw [← inits_dropLast_snoc d.comps]
  simp

theorem ne_of_mem_ancestors {p q : Path} (h : q ∈ p.ancestors) : q ≠ p := by
  intro e
  have := (mem_ancestors h).2.1
  rw [e] at this
  exact Nat.lt_irrefl _ this

theorem osWriteFile_ok {fs fs2 : FS} {p : Path} {b : Bytes} (h : osWriteFile fs p b = .ok fs2) :
    fs2 = fs.set p (Node.file b) ∧ walkDirs fs p.ancestors = .ok () ∧
      fs.get p ≠ some Node.dir := by
  unfold osWriteFile at h
  split at h
  · cases h
  · rename_i u hw
    split at h
    · cases h
    · rename_i hne
      cases h
      exact ⟨rfl, hw, fun e => hne e⟩

theorem osRename_ok {fs fs3 : FS} {src dst : Path} (h : osRename fs src dst = .ok fs3)
    (hne : src ≠ dst) :
    ∃ b, fs.get src = some (Node.file b) ∧ walkDirs fs dst.ancestors = .ok () ∧
      fs.get dst ≠ some Node.dir ∧ fs3 = (fs.erase src).set dst (Node.file b) := by
  unfold osRename at h
  split at h
  · cases h
  · split at h
    · cases h
    · cases h
    · rename_i b hsrc
      split at h
      · cases h
      · rename_i u hw
        split at h
        · cases h
        · rename_i hnd
          rw [if_neg hne] at h
          cases h
          exact ⟨b, hsrc, hw, fun e => hnd e, rfl⟩

/-- What a successful `Write` did: the marshalled bytes, the filesystem after
each of the three steps, and the state returned. -/
theorem Write_ok {α : Type} (codec : Codec α) (w : World) (c r : String) (v : α)
    (h : (Write codec w c r v).1 = none) :
    c ≠ "" ∧ r ≠ "" ∧ ∃ b fs1 fs2 fs3,
      codec.marshalIndent v = some b ∧
      osMkdirAll w.fs (w.drv.dir.join [c]) = (none, fs1) ∧
      osWriteFile fs1 (((w.drv.dir.join [c]).join [r ++ ".json"]).addExt ".tmp") (b ++ [10])
        = .ok fs2 ∧
      osRename fs2 (((w.drv.dir.join [c]).join [r ++ ".json"]).addExt ".tmp")
        ((w.drv.dir.join [c]).join [r ++ ".json"]) = .ok fs3 ∧
      (Write codec w c r v).2 = ⟨(getOrCreateMutex w.drv c).2, fs3⟩ := by
  by_cases hc : c = ""
  · simp [Write, hc] at h
  by_cases hr : r = ""
  · simp [Write, hc, hr] at h
  rcases hm : osMkdirAll w.fs (w.drv.dir.join [c]) with ⟨e, fs1⟩
  cases e with
  | some e => simp [Write, hc, hr, hm] at h
  | none =>
    cases hb : codec.marshalIndent v with
    | none => simp [Write, hc, hr, hm, hb] at h
    | some b =>
      cases hwf : osWriteFile fs1
          (((w.drv.dir.join [c]).join [r ++ ".json"]).addExt ".tmp") (b ++ [10]) with
      | error e => simp [Write, hc, hr, hm, hb, hwf] at h
      | ok fs2 =>
        cases hrn : osRename fs2 (((w.drv.dir.join [c]).join [r ++ ".json"]).addExt ".tmp")
            ((w.drv.dir.join [c]).join [r ++ ".json"]) with
        | error e => simp [Write, hc, hr, hm, hb, hwf, hrn] at h
        | ok fs3 =>
          refine ⟨hc, hr, b, fs1, fs2, fs3, rfl, rfl, hwf, hrn, ?_⟩
          simp [Write, hc, hr, hm, hb, hwf, hrn]

theorem child_ne (dir : Path) {x y : String} (h : x ≠ y) : dir.child x ≠ dir.child y := by
  intro e
  simp [Path.child] at e
  exact h e

theorem child_comps_ne (dir : Path) (x : String) : (dir.child x).comps ≠ [] := by
  simp [Path.child]

theorem ne_child_of_mem_ancestors {dir q : Path} (x : String)
    (h : q ∈ dir.ancestors ++ [dir]) : q ≠ dir.child x := by
  rw [← ancestors_child dir x] at h
  exact ne_of_mem_ancestors h

/-- The filesystem after the last two steps of `Write` inside directory
`dir`: the final file holds the bytes, the temporary file is gone, the
directory is still resolvable and nothing else has changed. -/
theorem write_steps_child {fs1 fs2 fs3 : FS} {dir : Path} {name tname : String} {b : Bytes}
    (hne : tname ≠ name)
    (hwf : osWriteFile fs1 (dir.child tname) b = .ok fs2)
    (hrn : osRename fs2 (dir.child tname) (dir.child name) = .ok fs3) :
    fs3.get (dir.child name) = some (Node.file b) ∧
    fs3.get (dir.child tname) = none ∧
    walkDirs fs3 (dir.ancestors ++ [dir]) = .ok () ∧
    (∀ q, q ≠ dir.child name → q ≠ dir.child tname → fs3.get q = fs1.get q) := by
  obtain ⟨rfl, hw1, -⟩ := osWriteFile_ok hwf
  obtain ⟨b2, hsrc, hw2, -, rfl⟩ := osRename_ok hrn (child_ne dir hne)
  rw [get_set_self _ _ _ (child_comps_ne dir tname)] at hsrc
  cases hsrc
  refine ⟨get_set_self _ _ _ (child_comps_ne dir name), ?_, ?_, ?_⟩
  · rw [get_set_ne _ _ _ _ (child_ne dir hne), get_erase_self _ _ (child_comps_ne dir tname)]
  · rw [ancestors_child] at hw2
    rw [← hw2]
    apply walkDirs_congr
    intro q hq
    rw [get_set_ne _ _ _ _ (ne_child_of_mem_ancestors name hq),
      get_erase_ne _ _ _ (ne_child_of_mem_ancestors tname hq)]
  · intro q h1 h2
    rw [get_set_ne _ _ _ _ h1, get_erase_ne _ _ _ h2, get_set_ne _ _ _ _ h2]

theorem osReadFile_child {fs : FS} {dir : Path} {x : String} {b : Bytes}
    (hw : walkDirs fs (dir.ancestors ++ [dir]) = .ok ())
    (hg : fs.get (dir.child x) = some (Node.file b)) : osReadFile fs (dir.child x) = .ok b := by
  simp [osReadFile, ancestors_child, hw, hg]

theorem osStat_child {fs : FS} {dir : Path} {x : String}
    (hw : walkDirs fs (dir.ancestors ++ [dir]) = .ok ()) :
    osStat fs (dir.child x) = match fs.get (dir.child x) with
      | none => .error Errno.ENOENT
      | some n => .ok (infoOf (dir.child x) n) := by
  simp [osStat, ancestors_child, hw]

/-- The resolver finds a resource whose file with the extension exists in a
resolvable directory. -/
theorem statWith_child_json {fs : FS} {dir : Path} {r : String} {n : Node}
    (hw : walkDirs fs (dir.ancestors ++ [dir]) = .ok ())
    (hg : fs.get (dir.child (r ++ ".json")) = some n) :
    ∃ fi, statWith (osStat fs) (dir.child r) = .ok fi := by
  unfold statWith
  rw [osStat_child hw]
  cases fs.get (dir.child r) with
  | some m => exact ⟨_, rfl⟩
  | none =>
    simp only [isNotExist, beq_self_eq_true, if_true, addExt_child]
    rw [osStat_child hw, hg]
    exact ⟨_, rfl⟩

theorem osMkdir_ok {fs fs2 : FS} {p : Path} (h : osMkdir fs p = .ok fs2) :
    fs.get p = none ∧ fs2 = fs.set p Node.dir ∧ walkDirs fs p.ancestors = .ok () := by
  unfold osMkdir at h
  split at h
  · cases h
  · rename_i u hw
    split at h
    · cases h
    · rename_i hn
      cases h
      exact ⟨hn, rfl, hw⟩

/-- The step `os.MkdirAll` keeps every entry that exists. -/
theorem mkdirAllRev_keeps (abs : Bool) (rev : List String) (fs : FS) (q : Path) (n : Node)
    (h : fs.get q = some n) : (mkdirAllRev abs fs rev).2.get q = some n := by
  induction rev with
  | nil => exact h
  | cons c rest ih =>
    simp only [mkdirAllRev]
    split
    · split <;> exact h
    · rcases hrec : mkdirAllRev abs fs rest with ⟨e, fs1⟩
      rw [hrec] at ih
      cases e with
      | some e => exact ih
      | none =>
        simp only
        split
        · rename_i fs2 hmk
          obtain ⟨hnone, rfl, -⟩ := osMkdir_ok hmk
          have hne : q ≠ ⟨abs, (c :: rest).reverse⟩ := by
            intro e
            rw [e] at ih
            simp only at ih
            rw [hnone] at ih
            cases ih
          rw [get_set_ne _ _ _ _ hne]
          exact ih
        · split <;> exact ih

theorem osMkdirAll_keeps (fs : FS) (p q : Path) (n : Node) (h : fs.get q = some n) :
    (osMkdirAll fs p).2.get q = some n :=
  mkdirAllRev_keeps p.abs p.comps.reverse fs q n h

theorem osWriteFile_keeps_dir {fs fs2 : FS} {p : Path} {b : Bytes}
    (h : osWriteFile fs p b = .ok fs2) (q : Path) (hq : fs.get q = some Node.dir) :
    fs2.get q = some Node.dir := by
  obtain ⟨rfl, -, hnd⟩ := osWriteFile_ok h
  have hne : q ≠ p := fun e => hnd (e ▸ hq)
  rw [get_set_ne _ _ _ _ hne]
  exact hq

theorem osRename_keeps_dir {fs fs3 : FS} {src dst : Path}
    (h : osRename fs src dst = .ok fs3) (q : Path) (hq : fs.get q = some Node.dir) :
    fs3.get q = some Node.dir := by
  by_cases hsd : src = dst
  · subst hsd
    unfold osRename at h
    repeat' split at h
    all_goals first
      | (cases h; done)
      | (cases h; first | exact hq | (rename_i hx; exact absurd rfl hx))
  · obtain ⟨b, hsrc, -, hnd, rfl⟩ := osRename_ok h hsd
    have h1 : q ≠ dst := fun e => hnd (e ▸ hq)
    have h2 : q ≠ src := by
      intro e
      rw [e, hsrc] at hq
      cases hq
    rw [get_set_ne _ _ _ _ h1, get_erase_ne _ _ _ h2]
    exact hq

/-- `Write` never removes or replaces a directory. -/
theorem Write_keeps_dir {α : Type} (codec : Codec α) (w : World) (c r : String) (v : α)
    (q : Path) (hq : w.fs.get q = some Node.dir) :
    (Write codec w c r v).2.fs.get q = some Node.dir := by
  simp only [Write]
  split
  · exact hq
  split
  · exact hq
  have h1 := osMkdirAll_keeps w.fs (w.drv.dir.join [c]) q _ hq
  rcases hm : osMkdirAll w.fs (w.drv.dir.join [c]) with ⟨e, fs1⟩
  rw [hm] at h1
  simp only at h1 ⊢
  cases e with
  | some e => exact h1
  | none =>
    simp only
    cases codec.marshalIndent v with
    | none => exact h1
    | some b =>
      simp only
      split
      · exact h1
      · rename_i fs2 hwf
        have h2 := osWriteFile_keeps_dir hwf q h1
        split
        · exact h2
        · rename_i fs3 hrn
          exact osRename_keeps_dir hrn q h2

/-- The method `Read` with the result of the resolver taken apart. -/
theorem Read_eq {α : Type} (codec : Codec α) (w : World) (c r : String)
    (hc : c ≠ "") (hr : r ≠ "") :
    Read codec w c r =
      match statWith (osStat w.fs) (w.drv.dir.join [c, r]) with
      | .error e => (.error (Error.os e), w)
      | .ok _ =>
        match osReadFile w.fs ((w.drv.dir.join [c, r]).addExt ".json") with
        | .error e => (.error (Error.os e), w)
        | .ok b =>
          match codec.unmarshal b with
          | none => (.error Error.codec, w)
          | some v => (.ok v, w) := by
  simp only [Read, stat, hc, hr, if_false]
  cases statWith (osStat w.fs) (w.drv.dir.join [c, r]) <;> rfl

/-- The method `ReadAll` with the result of the resolver taken apart. -/
theorem ReadAll_eq (w : World) (c : String) (hc : c ≠ "") :
    ReadAll w c =
      match statWith (osStat w.fs) (w.drv.dir.join [c]) with
      | .error e => (.error (Error.os e), w)
      | .ok _ =>
        match readFiles w.fs (w.drv.dir.join [c])
            (match osReadDir w.fs (w.drv.dir.join [c]) with
              | .ok names => names
              | .error _ => []) [] with
        | .error e => (.error (Error.os e), w)
        | .ok records => (.ok records, w) := by
  simp only [ReadAll, stat, hc, if_false]
  cases statWith (osStat w.fs) (w.drv.dir.join [c]) <;> rfl

/-- The method `Delete` with the result of the resolver taken apart. -/
theorem Delete_eq (w : World) (c r : String) :
    Delete w c r =
      match statWith (osStat w.fs) (w.drv.dir.joinPath (joinNames c r)) with
      | .error _ => (some (Error.unableToFind (joinNames c r)),
          ⟨(getOrCreateMutex w.drv c).2, w.fs⟩)
      | .ok fi =>
        if fi.isDir then
          ((osRemoveAll w.fs (w.drv.dir.joinPath (joinNames c r))).1.map Error.os,
            ⟨(getOrCreateMutex w.drv c).2,
              (osRemoveAll w.fs (w.drv.dir.joinPath (joinNames c r))).2⟩)
        else if fi.isRegular then
          ((osRemoveAll w.fs ((w.drv.dir.joinPath (joinNames c r)).addExt ".json")).1.map
              Error.os,
            ⟨(getOrCreateMutex w.drv c).2,
              (osRemoveAll w.fs ((w.drv.dir.joinPath (joinNames c r)).addExt ".json")).2⟩)
        else (none, ⟨(getOrCreateMutex w.drv c).2, w.fs⟩) := by
  simp only [Delete, stat]
  cases statWith (osStat w.fs) (w.drv.dir.joinPath (joinNames c r)) <;> rfl

theorem Read_state {α : Type} (codec : Codec α) (w : World) (c r : String) :
    (Read codec w c r).2 = w := by
  by_cases hc : c = ""
  · simp [Read, hc]
  by_cases hr : r = ""
  · simp [Read, hc, hr]
  rw [Read_eq codec w c r hc hr]
  repeat' split
  all_goals rfl

theorem ReadAll_state (w : World) (c : String) : (ReadAll w c).2 = w := by
  by_cases hc : c = ""
  · simp [ReadAll, hc]
  rw [ReadAll_eq w c hc]
  repeat' split
  all_goals rfl

theorem osRemoveAll_get_out (fs : FS) (p q : Path) (h : p.isPrefixOf q = false) :
    (osRemoveAll fs p).2.get q = fs.get q := by
  unfold osRemoveAll
  split
  · rename_i hp
    split
    · rename_i ha
      have hqa : q.abs = false := by
        simp only [Path.isPrefixOf, hp, ha, List.isPrefixOf, Bool.and_true] at h
        simpa using h
      simp only [FS.get]
      rw [lookup_filter_pos]
      intro n
      simp [hqa]
    · rfl
  · exact get_removeTree_out fs p q h

theorem exists_child (p : Path) (h : p.comps ≠ []) : ∃ (d : Path) (x : String), p = d.child x := by
  obtain ⟨a, l⟩ := p
  induction l using List.reverseRecOn with
  | nil => exact absurd rfl h
  | append_singleton l x _ => exact ⟨⟨a, l⟩, x, rfl⟩

theorem isPrefixOf_iff (p q : Path) :
    p.isPrefixOf q = true ↔ p.abs = q.abs ∧ p.comps <+: q.comps := by
  simp [Path.isPrefixOf, List.isPrefixOf_iff_prefix]

theorem isPrefixOf_of_mem_ancestors {p q : Path} (h : q ∈ p.ancestors) :
    p.isPrefixOf q = false := by
  rw [Bool.eq_false_iff]
  intro e
  have h1 := ((isPrefixOf_iff p q).1 e).2.length_le
  have h2 := (mem_ancestors h).2.1
  omega

theorem isPrefixOf_sibling (d : Path) {x y : String} (h : x ≠ y) :
    (d.child x).isPrefixOf (d.child y) = false := by
  rw [Bool.eq_false_iff]
  intro e
  have h1 := ((isPrefixOf_iff _ _).1 e).2
  have h2 : (d.child x).comps = (d.child y).comps :=
    h1.eq_of_length (by simp [Path.child])
  simp [Path.child] at h2
  exact h h2

theorem comps_ne_of_isPrefixOf {p q : Path} (h : p.isPrefixOf q = true) (hp : p.comps ≠ []) :
    q.comps ≠ [] := by
  intro e
  have h1 := ((isPrefixOf_iff p q).1 h).2
  rw [e] at h1
  exact hp (List.prefix_nil.1 h1)

theorem join_empty (p : Path) (c : String) : p.join [c, ""] = p.join [c] := by
  simp only [Path.join, clean, List.map_cons, List.map_nil, List.flatten_cons,
    List.flatten_nil, List.append_nil, components_empty]
  rw [← List.append_assoc, cleanAux_eq_reverse, cleanAux_eq_reverse, cleanStack_append]
  simp [cleanStack]

theorem append_ext_ne (s ext : String) (h : 0 < ext.length) : s ++ ext ≠ s := by
  intro e
  have := congrArg String.length e
  simp only [String.length_append] at this
  omega

/-- What a successful probe tells about a path inside a directory. -/
theorem osStat_child_ok {fs : FS} {d : Path} {x : String} {fi : FileInfo}
    (h : osStat fs (d.child x) = .ok fi) :
    walkDirs fs (d.ancestors ++ [d]) = .ok () ∧
      ∃ n, fs.get (d.child x) = some n ∧ fi = infoOf (d.child x) n := by
  unfold osStat at h
  rw [ancestors_child] at h
  split at h
  · cases h
  · rename_i u hw
    refine ⟨hw, ?_⟩
    split at h
    · cases h
    · rename_i n hn
      cases h
      exact ⟨n, hn, rfl⟩

/-- What a not-exist answer tells when the directory is resolvable. -/
theorem osStat_child_enoent {fs : FS} {d : Path} {x : String}
    (hw : walkDirs fs (d.ancestors ++ [d]) = .ok ())
    (h : osStat fs (d.child x) = .error Errno.ENOENT) : fs.get (d.child x) = none := by
  rw [osStat_child hw] at h
  cases hg : fs.get (d.child x) with
  | none => rfl
  | some n => simp [hg] at h

/-! ## The steps of a write -/

/-- The step `os.MkdirAll` changes an entry only from missing to directory. -/
theorem mkdirAllRev_get (abs : Bool) (rev : List String) (fs : FS) (q : Path) :
    (mkdirAllRev abs fs rev).2.get q = fs.get q ∨
      (fs.get q = none ∧ (mkdirAllRev abs fs rev).2.get q = some Node.dir) := by
  induction rev with
  | nil => exact Or.inl rfl
  | cons c rest ih =>
    simp only [mkdirAllRev]
    split
    · split <;> exact Or.inl rfl
    · rcases hrec : mkdirAllRev abs fs rest with ⟨e, fs1⟩
      rw [hrec] at ih
      cases e with
      | some e => exact ih
      | none =>
        simp only
        split
        · rename_i fs2 hmk
          obtain ⟨hnone, rfl, -⟩ := osMkdir_ok hmk
          by_cases hq : q = ⟨abs, (c :: rest).reverse⟩
          · subst hq
            simp only at ih
            rw [get_set_self _ _ _ (by simp)]
            rcases ih with ih | ih
            · exact Or.inr ⟨by rw [← ih]; exact hnone, rfl⟩
            · exact Or.inr ⟨ih.1, rfl⟩
          · rw [get_set_ne _ _ _ _ hq]
            exact ih
        · split <;> exact ih

theorem content_of_get {fs fs2 : FS} {q : Path}
    (h : fs2.get q = fs.get q ∨ (fs.get q = none ∧ fs2.get q = some Node.dir)) :
    content fs2 q = content fs q := by
  unfold content
  rcases h with h | ⟨h1, h2⟩
  · rw [h]
  · rw [h1, h2]

theorem mkdirAllRev_content (abs : Bool) (rev : List String) (fs : FS) (q : Path) :
    content (mkdirAllRev abs fs rev).2 q = content fs q :=
  content_of_get (mkdirAllRev_get abs rev fs q)

theorem mkdirAllTrace_content (abs : Bool) (rev : List String) (fs fs2 : FS) (q : Path)
    (h : fs2 ∈ mkdirAllTrace abs fs rev) : content fs2 q = content fs q := by
  induction rev with
  | nil =>
    simp only [mkdirAllTrace, List.mem_singleton] at h
    rw [h]
  | cons c rest ih =>
    simp only [mkdirAllTrace, List.mem_append, List.mem_singleton] at h
    rcases h with h | h
    · exact ih h
    · rw [h]
      exact mkdirAllRev_content abs (c :: rest) fs q

theorem mkdirAllTrace_head (abs : Bool) (rev : List String) (fs : FS) :
    fs ∈ mkdirAllTrace abs fs rev := by
  induction rev with
  | nil => simp [mkdirAllTrace]
  | cons c rest ih =>
    simp only [mkdirAllTrace, List.mem_append]
    exact Or.inl ih

theorem mkdirAllTrace_last (abs : Bool) (rev : List String) (fs : FS) :
    (mkdirAllRev abs fs rev).2 ∈ mkdirAllTrace abs fs rev := by
  cases rev with
  | nil => simp [mkdirAllTrace, mkdirAllRev]
  | cons c rest => simp [mkdirAllTrace]

theorem content_set_ne (fs : FS) (p q : Path) (n : Node) (h : q ≠ p) :
    content (fs.set p n) q = content fs q := by
  unfold content
  rw [get_set_ne _ _ _ _ h]

theorem content_erase_ne (fs : FS) (p q : Path) (h : q ≠ p) :
    content (fs.erase p) q = content fs q := by
  unfold content
  rw [get_erase_ne _ _ _ h]

/-- The last component of a path with an extension appended ends in the
extension. -/
theorem addExt_last (p : Path) (ext : String) :
    ∃ s : String, (p.addExt ext).comps.getLast? = some (s ++ ext) := by
  unfold Path.addExt
  split
  · split
    · exact ⟨"", by simp⟩
    · exact ⟨".", by simp⟩
  · rename_i last init _
    exact ⟨last, by simp⟩

theorem json_ne_tmp (s t : String) : s ++ ".json" ≠ t ++ ".tmp" := by
  intro e
  have h := congrArg (fun x : String => x.data.getLast?) e
  simp only [String.data_append] at h
  have h1 : (s.data ++ ".json".data).getLast? = some 'n' := by
    rw [List.getLast?_append]
    rfl
  have h2 : (t.data ++ ".tmp".data).getLast? = some 'p' := by
    rw [List.getLast?_append]
    rfl
  rw [h1, h2] at h
  exact absurd h (by decide)

theorem addExt_json_ne_tmp (p q : Path) : p.addExt ".json" ≠ q.addExt ".tmp" := by
  intro e
  obtain ⟨s, hs⟩ := addExt_last p ".json"
  obtain ⟨t, ht⟩ := addExt_last q ".tmp"
  rw [e, ht] at hs
  exact json_ne_tmp s t (Option.some.inj hs).symm

theorem addExt_ne_self (p : Path) (ext : String) (h : 0 < ext.length) : p.addExt ext ≠ p := by
  intro e
  obtain ⟨a, l⟩ := p
  induction l using List.reverseRecOn with
  | nil =>
    cases a <;> simp [Path.addExt] at e
  | append_singleton l x _ =>
    have : (⟨a, l⟩ : Path).child x = ⟨a, l ++ [x]⟩ := rfl
    rw [← this, addExt_child] at e
    exact child_ne _ (append_ext_ne x ext h) e

theorem partialWrites_content {fs fs2 : FS} {p : Path} {b : Bytes}
    (h : fs2 ∈ partialWrites fs p b) (q : Path) (hq : q ≠ p) : content fs2 q = content fs q := by
  unfold partialWrites at h
  split at h
  · simp at h
  · simp only [List.mem_map] at h
    obtain ⟨k, -, rfl⟩ := h
    exact content_set_ne _ _ _ _ hq

theorem partialWrites_last {fs fs2 : FS} {p : Path} {b : Bytes}
    (h : osWriteFile fs p b = .ok fs2) : fs2 ∈ partialWrites fs p b := by
  unfold partialWrites
  rw [h]
  simp only [List.mem_map, List.mem_range]
  exact ⟨b.length, by omega, by rw [List.take_length, (osWriteFile_ok h).1]⟩

/-- In every filesystem a `Write` passes through, a path other than the
temporary file holds the bytes it held before, or it is the final path and
holds the complete new bytes. -/
theorem writeTrace_content {α : Type} (codec : Codec α) (w : World) (c r : String) (v : α)
    (fs2 : FS) (h : fs2 ∈ writeTrace codec w c r v) (q : Path)
    (hq : q ≠ ((w.drv.dir.join [c]).join [r ++ ".json"]).addExt ".tmp") :
    content fs2 q = content w.fs q ∨
      (q = (w.drv.dir.join [c]).join [r ++ ".json"] ∧
        ∃ b, codec.marshalIndent v = some b ∧ content fs2 q = some (b ++ [10])) := by
  by_cases hc : c = ""
  · simp only [writeTrace, hc, if_true, List.mem_singleton] at h
    rw [h]
    exact Or.inl rfl
  by_cases hr : r = ""
  · simp only [writeTrace, hc, hr, if_true, if_false, List.mem_singleton] at h
    rw [h]
    exact Or.inl rfl
  simp only [writeTrace, hc, hr, if_false, List.mem_append] at h
  rcases h with h | h
  · exact Or.inl (mkdirAllTrace_content _ _ _ _ q h)
  have h1 : ∀ x, content (osMkdirAll w.fs (w.drv.dir.join [c])).2 x = content w.fs x :=
    fun x => mkdirAllRev_content _ _ _ x
  rcases hm : osMkdirAll w.fs (w.drv.dir.join [c]) with ⟨e, fs1⟩
  rw [hm] at h h1
  simp only at h1
  cases e with
  | some e => simp at h
  | none =>
    simp only at h
    cases hb : codec.marshalIndent v with
    | none => simp [hb] at h
    | some b =>
      simp only [hb, List.mem_append] at h
      rcases h with h | h
      · rw [partialWrites_content h q hq]
        exact Or.inl (h1 q)
      cases hwf : osWriteFile fs1
          (((w.drv.dir.join [c]).join [r ++ ".json"]).addExt ".tmp") (b ++ [10]) with
      | error e => simp [hwf] at h
      | ok fs3 =>
        simp only [hwf] at h
        cases hrn : osRename fs3 (((w.drv.dir.join [c]).join [r ++ ".json"]).addExt ".tmp")
            ((w.drv.dir.join [c]).join [r ++ ".json"]) with
        | error e => simp [hrn] at h
        | ok fs4 =>
          simp only [hrn, List.mem_singleton] at h
          subst h
          obtain ⟨rfl, -, -⟩ := osWriteFile_ok hwf
          obtain ⟨b2, hsrc, -, hnd, rfl⟩ :=
            osRename_ok hrn (addExt_ne_self _ ".tmp" (by decide))
          have hb2 : b2 = b ++ [10] := by
            have hne : (((w.drv.dir.join [c]).join [r ++ ".json"]).addExt ".tmp").comps ≠ [] := by
              obtain ⟨s, hs⟩ := addExt_last ((w.drv.dir.join [c]).join [r ++ ".json"]) ".tmp"
              intro e
              rw [e] at hs
              cases hs
            rw [get_set_self _ _ _ hne] at hsrc
            cases hsrc
            rfl
          subst hb2
          by_cases hf : q = (w.drv.dir.join [c]).join [r ++ ".json"]
          · refine Or.inr ⟨hf, b, rfl, ?_⟩
            subst hf
            have hne : ((w.drv.dir.join [c]).join [r ++ ".json"]).comps ≠ [] := by
              intro e
              exact hnd (by simp [FS.get, e])
            simp [content, get_set_self _ _ _ hne]
          · left
            rw [content_set_ne _ _ _ _ hf, content_erase_ne _ _ _ hq, content_set_ne _ _ _ _ hq]
            exact h1 q

theorem osReadFile_content {fs : FS} {p : Path} {b : Bytes} (h : osReadFile fs p = .ok b) :
    content fs p = some b := by
  unfold osReadFile at h
  unfold content
  split at h
  · cases h
  · split at h
    · cases h
    · cases h
    · rename_i b2 hg
      cases h
      rw [hg]

/-- A successful `Read` decoded the bytes of the file with the extension. -/
theorem Read_ok {α : Type} (codec : Codec α) (w : World) (c r : String) (out : α)
    (h : (Read codec w c r).1 = .ok out) :
    ∃ bytes, osReadFile w.fs ((w.drv.dir.join [c, r]).addExt ".json") = .ok bytes ∧
      codec.unmarshal bytes = some out := by
  by_cases hc : c = ""
  · simp [Read, hc] at h
  by_cases hr : r = ""
  · simp [Read, hc, hr] at h
  rw [Read_eq codec w c r hc hr] at h
  split at h
  · cases h
  · split at h
    · cases h
    · rename_i bytes hb
      split at h
      · cases h
      · rename_i v hv
        cases h
        exact ⟨bytes, hb, hv⟩

theorem writeTrace_head {α : Type} (codec : Codec α) (w : World) (c r : String) (v : α) :
    w.fs ∈ writeTrace codec w c r v := by
  unfold writeTrace
  split
  · simp
  split
  · simp
  simp only [List.mem_append]
  exact Or.inl (mkdirAllTrace_head _ _ _)

theorem writeTrace_last {α : Type} (codec : Codec α) (w : World) (c r : String) (v : α) :
    (Write codec w c r v).2.fs ∈ writeTrace codec w c r v := by
  by_cases hc : c = ""
  · simp [Write, writeTrace, hc]
  by_cases hr : r = ""
  · simp [Write, writeTrace, hc, hr]
  have hl : (osMkdirAll w.fs (w.drv.dir.join [c])).2 ∈
      mkdirAllTrace (w.drv.dir.join [c]).abs w.fs (w.drv.dir.join [c]).comps.reverse :=
    mkdirAllTrace_last _ _ _
  simp only [Write, writeTrace, hc, hr, if_false, List.mem_append]
  rcases hm : osMkdirAll w.fs (w.drv.dir.join [c]) with ⟨e, fs1⟩
  rw [hm] at hl
  cases e with
  | some e => exact Or.inl hl
  | none =>
    simp only
    cases hb : codec.marshalIndent v with
    | none => exact Or.inl hl
    | some b =>
      simp only [List.mem_append]
      cases hwf : osWriteFile fs1
          (((w.drv.dir.join [c]).join [r ++ ".json"]).addExt ".tmp") (b ++ [10]) with
      | error e => exact Or.inl hl
      | ok fs2 =>
        simp only
        cases hrn : osRename fs2 (((w.drv.dir.join [c]).join [r ++ ".json"]).addExt ".tmp")
            ((w.drv.dir.join [c]).join [r ++ ".json"]) with
        | error e => exact Or.inr (Or.inl (partialWrites_last hwf))
        | ok fs3 => exact Or.inr (Or.inr (by simp))

/-! ## A populated collection -/

theorem lookup_ne_none_iff (fs : FS) (q : Path) : fs.lookup q ≠ none ↔ ∃ n, (q, n) ∈ fs := by
  induction fs with
  | nil => simp [FS.lookup]
  | cons e rest ih =>
    obtain ⟨k, m⟩ := e
    by_cases hk : k = q
    · subst hk
      simp only [FS.lookup, if_true, ne_eq, not_false_eq_true, List.mem_cons, true_iff, reduceCtorEq]
      exact ⟨m, Or.inl rfl⟩
    · simp only [FS.lookup, hk, if_false, List.mem_cons, Prod.mk.injEq]
      rw [ih]
      constructor
      · rintro ⟨n, hn⟩
        exact ⟨n, Or.inr hn⟩
      · rintro ⟨n, hn | hn⟩
        · exact absurd hn.1.symm hk
        · exact ⟨n, hn⟩

theorem parent_child (d : Path) (x : String) : (d.child x).parent = d := by
  simp [Path.parent, Path.child, List.dropLast_concat]

theorem name_child (d : Path) (x : String) : (d.child x).name = x := by
  simp [Path.name, Path.child, List.getLast?_concat]

theorem eq_child_iff (p d : Path) (x : String) :
    (p.comps ≠ [] ∧ p.parent = d ∧ p.name = x) ↔ p = d.child x := by
  constructor
  · rintro ⟨h1, h2, h3⟩
    obtain ⟨d2, y, rfl⟩ := exists_child p h1
    rw [parent_child] at h2
    rw [name_child] at h3
    rw [h2, h3]
  · rintro rfl
    exact ⟨child_comps_ne d x, parent_child d x, name_child d x⟩

/-- The names listed in a directory are those of the entries inside it. -/
theorem mem_childNames (fs : FS) (d : Path) (x : String) :
    x ∈ childNames fs d ↔ fs.get (d.child x) ≠ none := by
  have hg : fs.get (d.child x) = fs.lookup (d.child x) := by
    simp [FS.get, Path.child]
  rw [hg, lookup_ne_none_iff]
  simp only [childNames, List.mem_map, List.mem_filter, decide_eq_true_eq]
  constructor
  · rintro ⟨⟨p, n⟩, ⟨hmem, h1, h2⟩, h3⟩
    have := (eq_child_iff p d x).1 ⟨h1, h2, h3⟩
    subst this
    exact ⟨n, hmem⟩
  · rintro ⟨n, hn⟩
    have := (eq_child_iff (d.child x) d x).2 rfl
    exact ⟨(d.child x, n), ⟨hn, this.1, this.2.1⟩, this.2.2⟩

/-- The step `os.MkdirAll` touches only the path and its ancestors. -/
theorem mkdirAllRev_get_out (abs : Bool) (rev : List String) (fs : FS) (q : Path)
    (h : ∀ k, q ≠ ⟨abs, (rev.drop k).reverse⟩) :
    (mkdirAllRev abs fs rev).2.get q = fs.get q := by
  induction rev with
  | nil => rfl
  | cons c rest ih =>
    have ih := ih (fun k => h (k + 1))
    simp only [mkdirAllRev]
    split
    · split <;> rfl
    · rcases hrec : mkdirAllRev abs fs rest with ⟨e, fs1⟩
      rw [hrec] at ih
      cases e with
      | some e => exact ih
      | none =>
        simp only
        split
        · rename_i fs2 hmk
          obtain ⟨-, rfl, -⟩ := osMkdir_ok hmk
          have h0 : q ≠ ⟨abs, (c :: rest).reverse⟩ := h 0
          simp only
          rw [get_set_ne _ _ _ _ h0]
          exact ih
        · split <;> exact ih

theorem strictly_below_ne {d q : Path} (h : d.isPrefixOf q = true) (hne : q ≠ d)
    (l : List String) (hl : l.length ≤ d.comps.length) : q ≠ ⟨d.abs, l⟩ := by
  intro e
  obtain ⟨ha, hp⟩ := (isPrefixOf_iff d q).1 h
  have hlen := hp.length_le
  have hq : q.comps = l := by rw [e]
  have : d.comps = q.comps := hp.eq_of_length (by rw [hq] at hlen ⊢; omega)
  apply hne
  obtain ⟨qa, qc⟩ := q
  obtain ⟨da, dc⟩ := d
  simp only at ha this
  simp [ha, this]

theorem osMkdirAll_get_below (fs : FS) (d q : Path) (h : d.isPrefixOf q = true) (hne : q ≠ d) :
    (osMkdirAll fs d).2.get q = fs.get q := by
  apply mkdirAllRev_get_out
  intro k
  apply strictly_below_ne h hne
  simp only [List.length_reverse, List.length_drop]
  omega

theorem isPrefixOf_child (d : Path) (x : String) : d.isPrefixOf (d.child x) = true := by
  rw [isPrefixOf_iff]
  exact ⟨rfl, List.prefix_append _ _⟩

theorem child_ne_self (d : Path) (x : String) : d.child x ≠ d := by
  intro e
  have := congrArg (fun p : Path => p.comps.length) e
  simp [Path.child] at this

theorem append_ext_inj {s t ext : String} (h : s ++ ext = t ++ ext) : s = t := by
  have h1 := congrArg String.data h
  simp only [String.data_append] at h1
  exact String.ext (List.append_cancel_right h1)

theorem getOrCreateMutex_dir (d : Driver) (c : String) : (getOrCreateMutex d c).2.dir = d.dir := by
  unfold getOrCreateMutex
  cases lookupMutex d.mutexes c <;> rfl

theorem Write_dir {α : Type} (codec : Codec α) (w : World) (c r : String) (v : α) :
    (Write codec w c r v).2.drv.dir = w.drv.dir := by
  simp only [Write]
  repeat' split
  all_goals first
    | rfl
    | exact getOrCreateMutex_dir _ _

/-- A successful `Write` of a new plain name adds its record to a populated
collection and leaves the directory resolvable. -/
theorem Write_populated {α : Type} (codec : Codec α) (w : World) (c r : String) (v : α)
    (ws : List (String × α)) (hr : plainName r = true) (hnew : r ∉ ws.map Prod.fst)
    (hpop : Populated codec w.fs (w.drv.dir.join [c]) ws)
    (hw : (Write codec w c r v).1 = none) :
    Populated codec (Write codec w c r v).2.fs (w.drv.dir.join [c]) (ws ++ [(r, v)]) ∧
    walkDirs (Write codec w c r v).2.fs
      ((w.drv.dir.join [c]).ancestors ++ [w.drv.dir.join [c]]) = .ok () := by
  obtain ⟨-, -, b, fs1, fs2, fs3, hb, hm, hwf, hrn, hst⟩ := Write_ok codec w c r v hw
  obtain ⟨hns, -, -, -⟩ := plainName_spec hr
  have hj : plainName (r ++ ".json") = true := plainName_addExt r ".json" hns (by decide) (by decide)
  have hfnl : (w.drv.dir.join [c]).join [r ++ ".json"] = (w.drv.dir.join [c]).child (r ++ ".json") :=
    clean_join_plain _ _ _ hj
  rw [hfnl, addExt_child] at hwf hrn
  obtain ⟨hget, htmp, hwalk, hframe⟩ :=
    write_steps_child (append_ext_ne (r ++ ".json") ".tmp" (by decide)) hwf hrn
  have hfs1 : ∀ q, (w.drv.dir.join [c]).isPrefixOf q = true → q ≠ w.drv.dir.join [c] →
      fs1.get q = w.fs.get q := by
    intro q h1 h2
    have := osMkdirAll_get_below w.fs _ q h1 h2
    rw [hm] at this
    exact this
  rw [hst]
  refine ⟨⟨?_, ?_⟩, hwalk⟩
  · intro e he
    rw [List.mem_append, List.mem_singleton] at he
    rcases he with he | he
    · obtain ⟨b2, hb2, hg2⟩ := hpop.1 e he
      refine ⟨b2, hb2, ?_⟩
      have hne1 : e.1 ++ ".json" ≠ r ++ ".json" := by
        intro h
        apply hnew
        rw [← append_ext_inj h]
        exact List.mem_map_of_mem _ he
      have hne2 : e.1 ++ ".json" ≠ r ++ ".json" ++ ".tmp" := json_ne_tmp _ _
      simp only
      rw [hframe _ (child_ne _ hne1) (child_ne _ hne2),
        hfs1 _ (isPrefixOf_child _ _) (child_ne_self _ _)]
      exact hg2
    · subst he
      exact ⟨b ++ [10], by simp [encode, hb], hget⟩
  · intro q h1 h2 h3
    by_cases hq1 : q = (w.drv.dir.join [c]).child (r ++ ".json")
    · exact ⟨(r, v), by simp, hq1⟩
    by_cases hq2 : q = (w.drv.dir.join [c]).child (r ++ ".json" ++ ".tmp")
    · rw [hq2] at h3
      exact absurd htmp h3
    simp only at h3
    rw [hframe q hq1 hq2, hfs1 q h1 h2] at h3
    obtain ⟨e, he, heq⟩ := hpop.2 q h1 h2 h3
    exact ⟨e, List.mem_append_left _ he, heq⟩

/-- A sequence of successful writes of new plain names populates the
collection with exactly their records. -/
theorem writeAll_populated {α : Type} (codec : Codec α) (c : String) (todo : List (String × α)) :
    ∀ (w w1 : World) (done : List (String × α)),
      Populated codec w.fs (w.drv.dir.join [c]) done →
      (∀ e ∈ todo, plainName e.1 = true) →
      ((done ++ todo).map Prod.fst).Nodup →
      writeAll codec w c todo = some w1 →
      Populated codec w1.fs (w.drv.dir.join [c]) (done ++ todo) ∧ w1.drv.dir = w.drv.dir ∧
        (todo ≠ [] → walkDirs w1.fs
          ((w.drv.dir.join [c]).ancestors ++ [w.drv.dir.join [c]]) = .ok ()) := by
  induction todo with
  | nil =>
    intro w w1 done hpop _ _ hw
    simp only [writeAll, Option.some.injEq] at hw
    subst hw
    exact ⟨by simpa using hpop, rfl, fun h => absurd rfl h⟩
  | cons e rest ih =>
    intro w w1 done hpop hplain hnd hw
    obtain ⟨r, v⟩ := e
    simp only [writeAll] at hw
    rcases hwr : Write codec w c r v with ⟨err, w2⟩
    rw [hwr] at hw
    cases err with
    | some err => simp at hw
    | none =>
      simp only at hw
      have hw1 : (Write codec w c r v).1 = none := by rw [hwr]
      have hnew : r ∉ done.map Prod.fst := by
        intro hmem
        rw [List.map_append, List.nodup_append] at hnd
        exact hnd.2.2 hmem (by simp)
      obtain ⟨hpop2, hwalk2⟩ :=
        Write_populated codec w c r v done (hplain (r, v) (by simp)) hnew hpop hw1
      have hdir2 : w2.drv.dir = w.drv.dir := by
        have := Write_dir codec w c r v
        rw [hwr] at this
        exact this
      rw [hwr] at hpop2 hwalk2
      simp only at hpop2 hwalk2
      have hassoc : done ++ (r, v) :: rest = (done ++ [(r, v)]) ++ rest := by simp
      rw [hassoc] at hnd ⊢
      rw [← hdir2] at hpop2
      obtain ⟨h1, h2, h3⟩ :=
        ih w2 w1 (done ++ [(r, v)]) hpop2 (fun e he => hplain e (List.mem_cons_of_mem _ he)) hnd hw
      rw [hdir2] at h1 h3
      refine ⟨h1, h2.trans hdir2, fun _ => ?_⟩
      cases rest with
      | nil =>
        simp only [writeAll, Option.some.injEq] at hw
        subst hw
        exact hwalk2
      | cons e2 rest2 => exact h3 (by simp)

theorem walkDirs_append (fs : FS) (a b : List Path) (h : walkDirs fs (a ++ b) = .ok ()) :
    walkDirs fs a = .ok () ∧ walkDirs fs b = .ok () := by
  induction a with
  | nil => exact ⟨rfl, h⟩
  | cons q qs ih =>
    simp only [List.cons_append, walkDirs] at h ⊢
    cases hq : fs.get q with
    | none => simp [hq] at h
    | some n =>
      cases n with
      | file b => simp [hq] at h
      | dir =>
        simp only [hq] at h ⊢
        exact ih h

theorem osStat_dir_of_walk {fs : FS} {d : Path} (h : walkDirs fs (d.ancestors ++ [d]) = .ok ()) :
    osStat fs d = .ok (infoOf d Node.dir) ∧ fs.get d = some Node.dir := by
  obtain ⟨h1, h2⟩ := walkDirs_append fs _ _ h
  have hg : fs.get d = some Node.dir := by
    simp only [walkDirs] at h2
    split at h2
    · cases h2
    · cases h2
    · assumption
  exact ⟨by simp [osStat, h1, hg], hg⟩

/-- In a populated collection the resolver finds the regular file of every
record. -/
theorem statWith_populated {α : Type} (codec : Codec α) (fs : FS) (d : Path)
    (ws : List (String × α)) (r : String)
    (hpop : Populated codec fs d ws) (hwalk : walkDirs fs (d.ancestors ++ [d]) = .ok ())
    (hmem : r ∈ ws.map Prod.fst) :
    ∃ fi, statWith (osStat fs) (d.child r) = .ok fi ∧ fi.mode = Mode.regular := by
  unfold statWith
  rw [osStat_child hwalk]
  cases hg : fs.get (d.child r) with
  | some n =>
    obtain ⟨e, he, heq⟩ := hpop.2 _ (isPrefixOf_child d r) (child_ne_self d r) (by simp [hg])
    obtain ⟨b, -, hb⟩ := hpop.1 e he
    rw [← heq, hg] at hb
    cases hb
    exact ⟨_, rfl, rfl⟩
  | none =>
    simp only [isNotExist, beq_self_eq_true, if_true, addExt_child]
    rw [osStat_child hwalk]
    obtain ⟨e, he, rfl⟩ := List.mem_map.1 hmem
    obtain ⟨b, -, hb⟩ := hpop.1 e he
    rw [hb]
    exact ⟨_, rfl, rfl⟩

/-- What `Delete` of a record does in a populated collection. -/
theorem Delete_populated {α : Type} (codec : Codec α) (w : World) (c r : String)
    (ws : List (String × α)) (hc : c ≠ "") (hrel : isAbs c = false) (hr : plainName r = true)
    (hpop : Populated codec w.fs (w.drv.dir.join [c]) ws)
    (hwalk : walkDirs w.fs ((w.drv.dir.join [c]).ancestors ++ [w.drv.dir.join [c]]) = .ok ())
    (hmem : r ∈ ws.map Prod.fst) :
    Delete w c r = (none, ⟨(getOrCreateMutex w.drv c).2,
      w.fs.removeTree ((w.drv.dir.join [c]).child (r ++ ".json"))⟩) := by
  have htarget : w.drv.dir.joinPath (joinNames c r) = (w.drv.dir.join [c]).child r := by
    rw [joinPath_joinNames _ _ _ (by simp [hc, hrel]), join_plain _ _ _ hr]
  obtain ⟨fi, hfi, hmode⟩ := statWith_populated codec w.fs _ ws r hpop hwalk hmem
  rw [Delete_eq, htarget, hfi]
  simp [FileInfo.isDir, FileInfo.isRegular, hmode, osRemoveAll, addExt_child, child_comps_ne]

theorem path_eq_of_prefix_length {p q : Path} (h : p.isPrefixOf q = true)
    (hl : q.comps.length ≤ p.comps.length) : q = p := by
  obtain ⟨ha, hp⟩ := (isPrefixOf_iff p q).1 h
  have := hp.eq_of_length_le hl
  obtain ⟨pa, pc⟩ := p
  obtain ⟨qa, qc⟩ := q
  simp only at ha this
  simp [ha, this]

theorem isPrefixOf_trans {p q r : Path} (h1 : p.isPrefixOf q = true) (h2 : q.isPrefixOf r = true) :
    p.isPrefixOf r = true := by
  rw [isPrefixOf_iff] at h1 h2 ⊢
  exact ⟨h1.1.trans h2.1, h1.2.trans h2.2⟩

/-- Removing the file of one record leaves every other entry as it was. -/
theorem removeTree_populated_frame {α : Type} (codec : Codec α) (fs : FS) (d : Path)
    (ws : List (String × α)) (x : String) (hpop : Populated codec fs d ws) (q : Path)
    (hq : q ≠ d.child x) : (fs.removeTree (d.child x)).get q = fs.get q := by
  cases hpre : (d.child x).isPrefixOf q with
  | false => exact get_removeTree_out _ _ _ hpre
  | true =>
    rw [get_removeTree_in _ _ _ hpre (comps_ne_of_isPrefixOf hpre (child_comps_ne d x))]
    symm
    by_contra hne
    have hd : d.isPrefixOf q = true := isPrefixOf_trans (isPrefixOf_child d x) hpre
    have hqd : q ≠ d := by
      intro e
      rw [e] at hpre
      have := ((isPrefixOf_iff _ _).1 hpre).2.length_le
      simp [Path.child] at this
    obtain ⟨e, -, heq⟩ := hpop.2 q hd hqd hne
    apply hq
    apply path_eq_of_prefix_length hpre
    rw [heq]
    simp [Path.child]

/-- Removing the file of one record leaves the collection populated with
the other records. -/
theorem removeTree_populated {α : Type} (codec : Codec α) (fs : FS) (d : Path)
    (ws : List (String × α)) (r : String) (hpop : Populated codec fs d ws) :
    Populated codec (fs.removeTree (d.child (r ++ ".json"))) d
      (ws.filter (fun e => decide (e.1 ≠ r))) := by
  constructor
  · intro e he
    simp only [List.mem_filter, decide_eq_true_eq] at he
    obtain ⟨b, hb, hg⟩ := hpop.1 e he.1
    refine ⟨b, hb, ?_⟩
    rw [removeTree_populated_frame codec fs d ws _ hpop _
      (child_ne d (fun h => he.2 (append_ext_inj h)))]
    exact hg
  · intro q h1 h2 h3
    by_cases hq : q = d.child (r ++ ".json")
    · rw [hq, get_removeTree_in _ _ _ (by simp [Path.isPrefixOf]) (child_comps_ne d _)] at h3
      exact absurd rfl h3
    · rw [removeTree_populated_frame codec fs d ws _ hpop q hq] at h3
      obtain ⟨e, he, heq⟩ := hpop.2 q h1 h2 h3
      refine ⟨e, ?_, heq⟩
      simp only [List.mem_filter, decide_eq_true_eq]
      refine ⟨he, fun h => hq ?_⟩
      rw [heq, h]

theorem removeTree_walk (fs : FS) (d : Path) (x : String)
    (h : walkDirs fs (d.ancestors ++ [d]) = .ok ()) :
    walkDirs (fs.removeTree (d.child x)) (d.ancestors ++ [d]) = .ok () := by
  rw [← h]
  apply walkDirs_congr
  intro q hq
  rw [← ancestors_child d x] at hq
  exact get_removeTree_out _ _ _ (isPrefixOf_of_mem_ancestors hq)

theorem readFiles_ok (fs : FS) (d : Path) (g : String → Option Bytes) (names : List String) :
    ∀ acc : List Bytes,
      (∀ x ∈ names, ∃ b, osReadFile fs (d.join [x]) = .ok b ∧ g x = some b) →
      ∃ out, readFiles fs d names acc = .ok (acc ++ out) ∧ out.map some = names.map g := by
  induction names with
  | nil =>
    intro acc _
    exact ⟨[], by simp [readFiles], rfl⟩
  | cons x rest ih =>
    intro acc h
    obtain ⟨b, hb, hg⟩ := h x (by simp)
    obtain ⟨out, ho, hm⟩ := ih (acc ++ [b]) (fun y hy => h y (List.mem_cons_of_mem _ hy))
    refine ⟨b :: out, ?_, ?_⟩
    · simp only [readFiles, hb]
      rw [ho]
      simp
    · simp [hm, hg]

/-- In a populated collection `ReadAll` returns the bytes of every record,
one payload each. -/
theorem ReadAll_populated {α : Type} (codec : Codec α) (w : World) (c : String)
    (ws : List (String × α)) (hc : c ≠ "")
    (hpop : Populated codec w.fs (w.drv.dir.join [c]) ws)
    (hwalk : walkDirs w.fs ((w.drv.dir.join [c]).ancestors ++ [w.drv.dir.join [c]]) = .ok ())
    (hplain : ∀ e ∈ ws, plainName e.1 = true) (hnd : (ws.map Prod.fst).Nodup) :
    ∃ payloads, (ReadAll w c).1 = .ok payloads ∧
      (payloads.map some).Perm (ws.map (fun e => encode codec e.2)) := by
  obtain ⟨hstat, hgd⟩ := osStat_dir_of_walk hwalk
  obtain ⟨hw1, -⟩ := walkDirs_append _ _ _ hwalk
  have hjson : ∀ e ∈ ws, plainName (e.1 ++ ".json") = true := fun e he =>
    plainName_addExt e.1 ".json" (plainName_spec (hplain e he)).1 (by decide) (by decide)
  have hmemiff : ∀ x, x ∈ childNames w.fs (w.drv.dir.join [c]) ↔
      x ∈ ws.map (fun e => e.1 ++ ".json") := by
    intro x
    rw [mem_childNames, List.mem_map]
    constructor
    · intro h
      obtain ⟨e, he, heq⟩ := hpop.2 _ (isPrefixOf_child _ x) (child_ne_self _ x) h
      refine ⟨e, he, ?_⟩
      simp only [Path.child, Path.mk.injEq, true_and] at heq
      have := List.append_cancel_left heq
      simpa using this.symm
    · rintro ⟨e, he, rfl⟩
      obtain ⟨b, -, hb⟩ := hpop.1 e he
      simp [hb]
  have hnd2 : (ws.map (fun e => e.1 ++ ".json")).Nodup := by
    have : ws.map (fun e => e.1 ++ ".json") = (ws.map Prod.fst).map (fun s => s ++ ".json") := by
      simp [List.map_map, Function.comp_def]
    rw [this]
    exact hnd.map (fun a b h => append_ext_inj h)
  have hperm : ((childNames w.fs (w.drv.dir.join [c])).dedup.insertionSort
      (fun a b => lexLe a.data b.data = true)).Perm (ws.map (fun e => e.1 ++ ".json")) := by
    refine (List.perm_insertionSort _ _).trans ?_
    rw [List.perm_ext_iff_of_nodup (List.nodup_dedup _) hnd2]
    intro x
    rw [List.mem_dedup]
    exact hmemiff x
  have hread : ∀ x ∈ (childNames w.fs (w.drv.dir.join [c])).dedup.insertionSort
      (fun a b => lexLe a.data b.data = true),
      ∃ b, osReadFile w.fs ((w.drv.dir.join [c]).join [x]) = .ok b ∧
        content w.fs ((w.drv.dir.join [c]).child x) = some b := by
    intro x hx
    obtain ⟨e, he, rfl⟩ := List.mem_map.1 (hperm.mem_iff.1 hx)
    obtain ⟨b, -, hb⟩ := hpop.1 e he
    have hj : (w.drv.dir.join [c]).join [e.1 ++ ".json"]
        = (w.drv.dir.join [c]).child (e.1 ++ ".json") := clean_join_plain _ _ _ (hjson e he)
    rw [hj]
    exact ⟨b, osReadFile_child hwalk hb, by simp [content, hb]⟩
  obtain ⟨out, hout, hmap⟩ := readFiles_ok w.fs (w.drv.dir.join [c])
    (fun x => content w.fs ((w.drv.dir.join [c]).child x)) _ [] hread
  refine ⟨out, ?_, ?_⟩
  · rw [ReadAll_eq w c hc]
    simp only [statWith, hstat, osReadDir, hw1, hgd]
    rw [hout]
    rfl
  · rw [hmap]
    refine (hperm.map _).trans ?_
    rw [List.map_map]
    apply List.Perm.of_eq
    apply List.map_congr_left
    intro e he
    obtain ⟨b, hb1, hb2⟩ := hpop.1 e he
    simp [content, hb2, hb1]

theorem populated_nil {α : Type} (codec : Codec α) (fs : FS) (d : Path)
    (h : emptyCollection fs d = true) : Populated codec fs d [] := by
  constructor
  · intro e he
    cases he
  · intro q h1 h2 h3
    exfalso
    have hq : q.comps ≠ [] := by
      intro e
      apply h2
      exact path_eq_of_prefix_length h1 (by simp [e])
    have hl : fs.lookup q ≠ none := by
      simpa [FS.get, hq] using h3
    obtain ⟨n, hn⟩ := (lookup_ne_none_iff fs q).1 hl
    simp only [emptyCollection, List.all_eq_true, Bool.or_eq_true, Bool.not_eq_true',
      decide_eq_true_eq] at h
    rcases h (q, n) hn with h | h
    · simp only at h
      rw [h1] at h
      cases h
    · exact h2 h

/-! ## The lock registry -/

theorem newMutex_gt (reg : List (String × Nat)) (m : Nat) (h : m ∈ reg.map Prod.snd) :
    m < newMutex reg := by
  unfold newMutex
  induction reg with
  | nil => simp at h
  | cons e rest ih =>
    simp only [List.map_cons, List.mem_cons, List.foldr_cons] at h ⊢
    rcases h with h | h
    · omega
    · have := ih h
      omega

theorem newMutex_fresh (reg : List (String × Nat)) : newMutex reg ∉ reg.map Prod.snd :=
  fun h => Nat.lt_irrefl _ (newMutex_gt reg _ h)

theorem lookupMutex_mem {reg : List (String × Nat)} {c : String} {m : Nat}
    (h : lookupMutex reg c = some m) : (c, m) ∈ reg := by
  induction reg with
  | nil => simp [lookupMutex] at h
  | cons e rest ih =>
    obtain ⟨k, m'⟩ := e
    by_cases hk : k = c
    · simp [lookupMutex, hk] at h
      simp [hk, h]
    · simp [lookupMutex, hk] at h
      exact List.mem_cons_of_mem _ (ih h)

theorem lookupMutex_none {reg : List (String × Nat)} {c : String}
    (h : lookupMutex reg c = none) : c ∉ reg.map Prod.fst := by
  induction reg with
  | nil => simp
  | cons e rest ih =>
    obtain ⟨k, m'⟩ := e
    by_cases hk : k = c
    · simp [lookupMutex, hk] at h
    · simp [lookupMutex, hk] at h
      simp only [List.map_cons, List.mem_cons, not_or]
      exact ⟨fun h' => hk h'.symm, ih h⟩

theorem getOrCreateMutex_lookup (d : Driver) (c : String) :
    lookupMutex (getOrCreateMutex d c).2.mutexes c = some (getOrCreateMutex d c).1 := by
  unfold getOrCreateMutex
  cases h : lookupMutex d.mutexes c with
  | none => simp [lookupMutex]
  | some m => simpa using h

theorem getOrCreateMutex_keeps (d : Driver) (c k : String) (m : Nat)
    (h : lookupMutex d.mutexes k = some m) :
    lookupMutex (getOrCreateMutex d c).2.mutexes k = some m := by
  unfold getOrCreateMutex
  cases hc : lookupMutex d.mutexes c with
  | some m0 => simpa using h
  | none =>
    have hck : c ≠ k := by
      intro e
      rw [e, h] at hc
      cases hc
    simp [lookupMutex, hck, h]

/-- Every call of the interface keeps the registered locks. -/
theorem step_keeps {α : Type} (codec : Codec α) (w : World) (op : Op α) (k : String) (m : Nat)
    (h : lookupMutex w.drv.mutexes k = some m) :
    lookupMutex (step codec w op).drv.mutexes k = some m := by
  cases op with
  | write c r v =>
    simp only [step, Write]
    split
    · exact h
    · split
      · exact h
      · have := getOrCreateMutex_keeps w.drv c k m h
        repeat' split
        all_goals exact this
  | read c r =>
    simp only [step, Read]
    repeat' split
    all_goals exact h
  | readAll c =>
    simp only [step, ReadAll]
    repeat' split
    all_goals exact h
  | delete c r =>
    have := getOrCreateMutex_keeps w.drv c k m h
    simp only [step, Delete]
    repeat' split
    all_goals exact this

theorem run_keeps {α : Type} (codec : Codec α) (ops : List (Op α)) (w : World) (k : String)
    (m : Nat) (h : lookupMutex w.drv.mutexes k = some m) :
    lookupMutex (run codec w ops).drv.mutexes k = some m := by
  induction ops generalizing w with
  | nil => exact h
  | cons op rest ih => exact ih (step codec w op) (step_keeps codec w op k m h)

theorem getOrCreateMutex_of_lookup (d : Driver) (c : String) (m : Nat)
    (h : lookupMutex d.mutexes c = some m) : getOrCreateMutex d c = (m, d) := by
  simp [getOrCreateMutex, h]

theorem getOrCreateMutex_nodup (d : Driver) (c : String)
    (h : (d.mutexes.map Prod.fst).Nodup) :
    ((getOrCreateMutex d c).2.mutexes.map Prod.fst).Nodup := by
  unfold getOrCreateMutex
  cases hc : lookupMutex d.mutexes c with
  | some m0 => simpa using h
  | none =>
    simp only [List.map_cons, List.nodup_cons]
    exact ⟨lookupMutex_none hc, h⟩

theorem step_nodup {α : Type} (codec : Codec α) (w : World) (op : Op α)
    (h : (w.drv.mutexes.map Prod.fst).Nodup) :
    ((step codec w op).drv.mutexes.map Prod.fst).Nodup := by
  cases op with
  | write c r v =>
    simp only [step, Write]
    split
    · exact h
    · split
      · exact h
      · have := getOrCreateMutex_nodup w.drv c h
        repeat' split
        all_goals exact this
  | read c r =>
    simp only [step, Read]
    repeat' split
    all_goals exact h
  | readAll c =>
    simp only [step, ReadAll]
    repeat' split
    all_goals exact h
  | delete c r =>
    have := getOrCreateMutex_nodup w.drv c h
    simp only [step, Delete]
    repeat' split
    all_goals exact this

theorem run_nodup {α : Type} (codec : Codec α) (ops : List (Op α)) (w : World)
    (h : (w.drv.mutexes.map Prod.fst).Nodup) :
    ((run codec w ops).drv.mutexes.map Prod.fst).Nodup := by
  induction ops generalizing w with
  | nil => exact h
  | cons op rest ih => exact ih (step codec w op) (step_nodup codec w op h)

/-- C9: `getOrCreateMutex` returns the lock already registered for the
collection when there is one and otherwise registers and returns a lock that
no entry holds; afterwards the registry maps the collection to the returned
lock, every other entry is as before and none has been removed; after any
sequence of engine calls a further call with the same name returns the same
lock; and a registry with one entry per name keeps one entry per name,
through the call and through any sequence of engine calls. -/
theorem lock_registry_invariant {α : Type} (codec : Codec α) (d : Driver) (c : String) :
    (∀ m0, lookupMutex d.mutexes c = some m0 → getOrCreateMutex d c = (m0, d)) ∧
    (lookupMutex d.mutexes c = none →
      (getOrCreateMutex d c).1 ∉ d.mutexes.map Prod.snd ∧
      (getOrCreateMutex d c).2.mutexes = (c, (getOrCreateMutex d c).1) :: d.mutexes) ∧
    lookupMutex (getOrCreateMutex d c).2.mutexes c = some (getOrCreateMutex d c).1 ∧
    (∀ k, k ≠ c → lookupMutex (getOrCreateMutex d c).2.mutexes k = lookupMutex d.mutexes k) ∧
    (∀ k mk, lookupMutex d.mutexes k = some mk →
      lookupMutex (getOrCreateMutex d c).2.mutexes k = some mk) ∧
    (∀ (fs : FS) (ops : List (Op α)),
      (getOrCreateMutex (run codec ⟨(getOrCreateMutex d c).2, fs⟩ ops).drv c).1
        = (getOrCreateMutex d c).1) ∧
    ((d.mutexes.map Prod.fst).Nodup →
      ((getOrCreateMutex d c).2.mutexes.map Prod.fst).Nodup ∧
      ∀ (fs : FS) (ops : List (Op α)),
        ((run codec ⟨(getOrCreateMutex d c).2, fs⟩ ops).drv.mutexes.map Prod.fst).Nodup) := by
  refine ⟨fun m0 h => getOrCreateMutex_of_lookup d c m0 h, ?_, getOrCreateMutex_lookup d c,
    ?_, fun k mk h => getOrCreateMutex_keeps d c k mk h, ?_, ?_⟩
  · intro h
    simp only [getOrCreateMutex, h]
    exact ⟨newMutex_fresh d.mutexes, trivial⟩
  · intro k hk
    unfold getOrCreateMutex
    cases hc : lookupMutex d.mutexes c with
    | some m0 => rfl
    | none => simp [lookupMutex, Ne.symm hk]
  · intro fs ops
    have h := run_keeps codec ops ⟨(getOrCreateMutex d c).2, fs⟩ c _ (getOrCreateMutex_lookup d c)
    rw [getOrCreateMutex_of_lookup _ c _ h]
  · intro h
    exact ⟨getOrCreateMutex_nodup d c h,
      fun fs ops => run_nodup codec ops ⟨_, fs⟩ (getOrCreateMutex_nodup d c h)⟩

/-- C9 at a registry holding the lock of `users`: the registered lock is
returned and the engine is unchanged. -/
theorem lock_registry_invariant_witness :
    getOrCreateMutex ⟨[("users", 1)], cleanString "db"⟩ "users"
      = (1, ⟨[("users", 1)], cleanString "db"⟩) :=
  (lock_registry_invariant natCodec ⟨[("users", 1)], cleanString "db"⟩ "users").1 1 (by decide)

/-! ## The path resolver -/

/-- C5: `stat` returns the metadata of the path when the probe of the path
succeeds; when the path does not exist it returns the metadata of the path
with `.json` appended if that exists and the not-exist error if neither
exists; an error of the first probe other than not-exist is returned
whatever the probe would answer for any other path; and the filesystem after
the call is the one before it. -/
theorem stat_contract (fs : FS) (probe : Path → Except Errno FileInfo) (p : Path) :
    (∀ fi, probe p = .ok fi → statWith probe p = .ok fi) ∧
    (probe p = .error Errno.ENOENT →
      (∀ fi, probe (p.addExt ".json") = .ok fi → statWith probe p = .ok fi) ∧
      (probe (p.addExt ".json") = .error Errno.ENOENT →
        statWith probe p = .error Errno.ENOENT)) ∧
    (∀ e, e ≠ Errno.ENOENT → probe p = .error e →
      ∀ probe2 : Path → Except Errno FileInfo, probe2 p = probe p →
        statWith probe2 p = .error e) ∧
    (stat fs p).1 = statWith (osStat fs) p ∧ (stat fs p).2 = fs := by
  refine ⟨?_, ?_, ?_, rfl, rfl⟩
  · intro fi h
    simp [statWith, h]
  · intro h
    constructor
    · intro fi h2
      simp [statWith, h, isNotExist, h2]
    · intro h2
      simp [statWith, h, isNotExist, h2]
  · intro e he h probe2 h2
    cases e <;> simp_all [statWith, isNotExist]

/-- C5 on a store holding `db/users/Ali.json`: resolving `db/users/Ali`
falls back to the file with the extension. -/
theorem stat_contract_witness :
    (stat (Write natCodec w0 "users" "Ali" 7).2.fs ((cleanString "db").join ["users", "Ali"])).1
      = .ok ⟨"Ali.json", Mode.regular⟩ :=
  ((stat_contract (Write natCodec w0 "users" "Ali" 7).2.fs
      (osStat (Write natCodec w0 "users" "Ali" 7).2.fs)
      ((cleanString "db").join ["users", "Ali"])).2.1 (by decide)).1 _ (by decide)

/-! ## Validation -/

/-- C8: `Write` with an empty collection returns the missing-collection
error, with a non-empty collection and an empty resource the
missing-resource error, and `Read` fails in the same way; in all four cases
the filesystem and the lock registry are exactly as before the call. -/
theorem validation_errors {α : Type} (codec : Codec α) (w : World) (c r : String) (v : α) :
    Write codec w "" r v = (some Error.missingCollection, w) ∧
    (c ≠ "" → Write codec w c "" v = (some Error.missingResource, w)) ∧
    Read codec w "" r = (.error Error.missingCollection, w) ∧
    (c ≠ "" → Read codec w c "" = (.error Error.missingResource, w)) := by
  refine ⟨by simp [Write], fun h => by simp [Write, h], by simp [Read],
    fun h => by simp [Read, h]⟩

/-- C8 on the collection `users`. -/
theorem validation_errors_witness :
    Write natCodec w0 "users" "" 7 = (some Error.missingResource, w0) :=
  (validation_errors natCodec w0 "users" "x" 7).2.1 (by decide)

/-! ## Round trip -/

/-- C1, as stated, fails for the resource name `..`: `Write` stores the
record in `db/users/...json`, and `Read` then looks for `db.json`. -/
theorem roundtrip_dotdot_fails :
    (Write natCodec w0 "users" ".." 7).1 = none ∧
    natCodec.unmarshal [7, 10] = some 7 ∧
    (Read natCodec (Write natCodec w0 "users" ".." 7).2 "users" "..").1
      = .error (Error.os Errno.ENOENT) := by
  decide

/-- C1, amended: for a non-empty collection name and a resource name that
is a plain name, when the codec decodes its own output followed by a newline
back to the value, a successful `Write` is followed by a successful `Read`
of the same value, and the file of the resource holds exactly the encoding
followed by one newline. -/
theorem write_read_roundtrip {α : Type} (codec : Codec α) (w : World) (c r : String) (v : α)
    (hc : c ≠ "") (hr : plainName r = true)
    (hcodec : ∀ b, codec.marshalIndent v = some b → codec.unmarshal (b ++ [10]) = some v)
    (hw : (Write codec w c r v).1 = none) :
    (Read codec (Write codec w c r v).2 c r).1 = .ok v ∧
    ∃ b, codec.marshalIndent v = some b ∧
      osReadFile (Write codec w c r v).2.fs ((w.drv.dir.join [c]).child (r ++ ".json"))
        = .ok (b ++ [10]) := by
  obtain ⟨-, hr0, b, fs1, fs2, fs3, hb, -, hwf, hrn, hst⟩ := Write_ok codec w c r v hw
  obtain ⟨hns, -, -, -⟩ := plainName_spec hr
  have hj : plainName (r ++ ".json") = true := plainName_addExt r ".json" hns (by decide) (by decide)
  have hfnl : (w.drv.dir.join [c]).join [r ++ ".json"] = (w.drv.dir.join [c]).child (r ++ ".json") :=
    clean_join_plain _ _ _ hj
  rw [hfnl, addExt_child] at hwf hrn
  have hne : r ++ ".json" ++ ".tmp" ≠ r ++ ".json" := by
    intro e
    have := congrArg String.length e
    simp only [String.length_append] at this
    have h4 : ".tmp".length = 4 := by decide
    omega
  obtain ⟨hget, -, hwalk, -⟩ := write_steps_child hne hwf hrn
  have hread := osReadFile_child hwalk hget
  obtain ⟨fi, hfi⟩ := statWith_child_json hwalk hget
  rw [hst]
  refine ⟨?_, b, hb, hread⟩
  simp only [Read, hc, hr0, if_false, getOrCreateMutex_dir, stat, join_plain _ _ _ hr, hfi,
    addExt_child, hread, hcodec b hb]

/-- C1, amended, on the record `users/Ali`. -/
theorem write_read_roundtrip_witness :
    (Read natCodec (Write natCodec w0 "users" "Ali" 7).2 "users" "Ali").1 = .ok 7 :=
  (write_read_roundtrip natCodec w0 "users" "Ali" 7 (by decide) (by decide)
    (by intro b hb; cases hb; rfl) (by decide)).1

/-! ## The base directory -/

/-- C2, as stated, fails for the collection name `.`: `Delete(".", "")`
resolves the base directory itself and removes it. -/
theorem delete_removes_base :
    w0.fs.get w0.drv.dir = some Node.dir ∧
    (Delete w0 "." "").1 = none ∧
    (Delete w0 "." "").2.fs.get w0.drv.dir = none := by
  decide

/-- C2, amended: the base directory, when it exists, still exists after
every `Write`, `Read` and `ReadAll`, whatever the arguments, and, when the
base directory and the path that `Delete` resolves lie inside the tree (no
`..`), after every `Delete` whose resolved path, bare and with `.json`
appended, is neither the base directory nor one of its ancestors. -/
theorem base_dir_kept {α : Type} (codec : Codec α) (w : World) (c r : String) (v : α)
    (hbase : w.fs.get w.drv.dir = some Node.dir) :
    (Write codec w c r v).2.fs.get w.drv.dir = some Node.dir ∧
    (Read codec w c r).2.fs.get w.drv.dir = some Node.dir ∧
    (ReadAll w c).2.fs.get w.drv.dir = some Node.dir ∧
    (w.drv.dir.inTree = true →
      (w.drv.dir.joinPath (joinNames c r)).inTree = true →
      (w.drv.dir.joinPath (joinNames c r)).isPrefixOf w.drv.dir = false →
      ((w.drv.dir.joinPath (joinNames c r)).addExt ".json").isPrefixOf w.drv.dir = false →
      (Delete w c r).2.fs.get w.drv.dir = some Node.dir) := by
  refine ⟨Write_keeps_dir codec w c r v _ hbase, ?_, ?_, ?_⟩
  · rw [Read_state]
    exact hbase
  · rw [ReadAll_state]
    exact hbase
  · intro _ _ h1 h2
    rw [Delete_eq]
    split
    · exact hbase
    · split
      · simp only
        rw [osRemoveAll_get_out _ _ _ h1]
        exact hbase
      · split
        · simp only
          rw [osRemoveAll_get_out _ _ _ h2]
          exact hbase
        · exact hbase

/-- C2, amended, on deleting the record `users/Ali`. -/
theorem base_dir_kept_witness :
    (Delete (Write natCodec w0 "users" "Ali" 7).2 "users" "Ali").2.fs.get (cleanString "db")
      = some Node.dir :=
  (base_dir_kept natCodec (Write natCodec w0 "users" "Ali" 7).2 "users" "Ali" 7
    (by decide)).2.2.2 (by decide) (by decide) (by decide) (by decide)

/-! ## Missing resources -/

/-- C4, as stated, fails for `ReadAll`: with a file `db/users.json` and no
directory `db/users`, the resolver falls back to the file, the listing error
is dropped, and `ReadAll` succeeds with no payloads. -/
theorem readAll_missing_dir_succeeds :
    (Write natCodec w0 "." "users" 7).1 = none ∧
    osStat (Write natCodec w0 "." "users" 7).2.fs ((cleanString "db").join ["users"])
      = .error Errno.ENOENT ∧
    (ReadAll (Write natCodec w0 "." "users" 7).2 "users").1 = .ok [] := by
  decide

/-- C4, amended: for non-empty names, when the probes of
`<base>/<c>/<r>` and of that path with `.json` appended both report that the
path does not exist, `Read` returns the not-exist error; when the probes of
`<base>/<c>` and of that path with `.json` appended both report that the path
does not exist, `ReadAll` returns the not-exist error and no payloads; the
state is unchanged in both cases. -/
theorem missing_resource_not_found {α : Type} (codec : Codec α) (w : World) (c r : String)
    (hc : c ≠ "") (hr : r ≠ "") :
    (osStat w.fs (w.drv.dir.join [c, r]) = .error Errno.ENOENT →
      osStat w.fs ((w.drv.dir.join [c, r]).addExt ".json") = .error Errno.ENOENT →
      Read codec w c r = (.error (Error.os Errno.ENOENT), w)) ∧
    (osStat w.fs (w.drv.dir.join [c]) = .error Errno.ENOENT →
      osStat w.fs ((w.drv.dir.join [c]).addExt ".json") = .error Errno.ENOENT →
      ReadAll w c = (.error (Error.os Errno.ENOENT), w)) ∧
    Error.isNotFound (Error.os Errno.ENOENT) = true := by
  refine ⟨?_, ?_, rfl⟩
  · intro h1 h2
    rw [Read_eq codec w c r hc hr]
    simp [statWith, h1, h2, isNotExist]
  · intro h1 h2
    rw [ReadAll_eq w c hc]
    simp [statWith, h1, h2, isNotExist]

/-- C4, amended, on the empty store: neither the record `users/nonexistent`
nor the collection `users` is found. -/
theorem missing_resource_not_found_witness :
    Read natCodec w0 "users" "nonexistent" = (.error (Error.os Errno.ENOENT), w0) ∧
    ReadAll w0 "users" = (.error (Error.os Errno.ENOENT), w0) :=
  ⟨(missing_resource_not_found natCodec w0 "users" "nonexistent" (by decide) (by decide)).1
      (by decide) (by decide),
    (missing_resource_not_found natCodec w0 "users" "nonexistent" (by decide) (by decide)).2.1
      (by decide) (by decide)⟩

/-! ## Deleting a collection -/

/-- C7, as stated, fails: when a file `db/users.json` exists next to the
directory `db/users`, `Delete("users", "")` removes the directory, and
`ReadAll("users")` then resolves to the file and succeeds with no payloads. -/
theorem delete_collection_readAll_succeeds :
    osStat (Write natCodec (Write natCodec w0 "users" "Ali" 7).2 "." "users" 8).2.fs
        ((cleanString "db").join ["users"]) = .ok ⟨"users", Mode.dir⟩ ∧
    (Delete (Write natCodec (Write natCodec w0 "users" "Ali" 7).2 "." "users" 8).2
        "users" "").1 = none ∧
    (ReadAll (Delete (Write natCodec (Write natCodec w0 "users" "Ali" 7).2 "." "users" 8).2
        "users" "").2 "users").1 = .ok [] := by
  decide

/-- C7, amended: for a non-empty relative collection name whose directory
`<base>/<c>` lies inside the tree (no `..`), exists and is neither `.` nor
the root, `Delete(c, "")` succeeds, removes the directory and everything
beneath it and leaves every other entry of the tree unchanged; and when no
entry `<base>/<c>.json` exists, a following `ReadAll(c)` returns the
not-exist error. -/
theorem delete_collection (w : World) (c : String) (name : String)
    (hc : c ≠ "") (hrel : isAbs c = false)
    (_hscope : (w.drv.dir.join [c]).inTree = true)
    (hdir : osStat w.fs (w.drv.dir.join [c]) = .ok ⟨name, Mode.dir⟩)
    (hne : (w.drv.dir.join [c]).comps ≠ []) :
    (Delete w c "").1 = none ∧
    (∀ q, (w.drv.dir.join [c]).isPrefixOf q = true → (Delete w c "").2.fs.get q = none) ∧
    (∀ q, q.abs = (w.drv.dir.join [c]).abs → q.inTree = true →
      (w.drv.dir.join [c]).isPrefixOf q = false →
      (Delete w c "").2.fs.get q = w.fs.get q) ∧
    (osStat w.fs ((w.drv.dir.join [c]).addExt ".json") = .error Errno.ENOENT →
      (ReadAll (Delete w c "").2 c).1 = .error (Error.os Errno.ENOENT)) := by
  have htarget : w.drv.dir.joinPath (joinNames c "") = w.drv.dir.join [c] := by
    rw [joinPath_joinNames _ _ _ (by simp [hc, hrel]), join_empty]
  have hdel : Delete w c "" =
      (none, ⟨(getOrCreateMutex w.drv c).2, w.fs.removeTree (w.drv.dir.join [c])⟩) := by
    rw [Delete_eq, htarget]
    simp [statWith, hdir, FileInfo.isDir, osRemoveAll, hne]
  rw [hdel]
  refine ⟨rfl, ?_, ?_, ?_⟩
  · intro q hq
    exact get_removeTree_in _ _ _ hq (comps_ne_of_isPrefixOf hq hne)
  · intro q _ _ hq
    exact get_removeTree_out _ _ _ hq
  · intro hjson
    obtain ⟨d, x, hdx⟩ := exists_child _ hne
    rw [ReadAll_eq _ c hc]
    simp only [getOrCreateMutex_dir]
    rw [hdx] at hdir hjson ⊢
    obtain ⟨hw, n, hn, -⟩ := osStat_child_ok hdir
    rw [addExt_child] at hjson
    have hx : x ≠ x ++ ".json" := fun e => append_ext_ne x ".json" (by decide) e.symm
    have hw2 : walkDirs (w.fs.removeTree (d.child x)) (d.ancestors ++ [d]) = .ok () := by
      rw [← hw]
      apply walkDirs_congr
      intro q hq
      rw [← ancestors_child d x] at hq
      exact get_removeTree_out _ _ _ (isPrefixOf_of_mem_ancestors hq)
    have h1 : osStat (w.fs.removeTree (d.child x)) (d.child x) = .error Errno.ENOENT := by
      rw [osStat_child hw2, get_removeTree_in _ _ _ (by simp [Path.isPrefixOf])
        (child_comps_ne d x)]
    have h2 : osStat (w.fs.removeTree (d.child x)) (d.child (x ++ ".json"))
        = .error Errno.ENOENT := by
      rw [osStat_child hw2, get_removeTree_out _ _ _ (isPrefixOf_sibling d hx),
        osStat_child_enoent hw hjson]
    simp [statWith, h1, h2, isNotExist, addExt_child]

/-- C7, amended, on the collection `users` holding one record. -/
theorem delete_collection_witness :
    (Delete (Write natCodec w0 "users" "Ali" 7).2 "users" "").1 = none ∧
    (ReadAll (Delete (Write natCodec w0 "users" "Ali" 7).2 "users" "").2 "users").1
      = .error (Error.os Errno.ENOENT) :=
  ⟨(delete_collection (Write natCodec w0 "users" "Ali" 7).2 "users" "users" (by decide)
      (by decide) (by decide) (by decide) (by decide)).1,
    (delete_collection (Write natCodec w0 "users" "Ali" 7).2 "users" "users" (by decide)
      (by decide) (by decide) (by decide) (by decide)).2.2.2 (by decide)⟩

/-- Why the collection name has to be relative: `filepath.Join` cleans a
rooted name on its own, so `Delete("/../x", "")` looks for `db/x` and finds
nothing, while `Write` and `ReadAll` with the same name work on the existing
directory `x`. -/
theorem delete_rooted_collection_not_found :
    osStat (Write natCodec w0 "/../x" "f" 7).2.fs ((cleanString "db").join ["/../x"])
      = .ok ⟨"x", Mode.dir⟩ ∧
    (Delete (Write natCodec w0 "/../x" "f" 7).2 "/../x" "").1
      = some (Error.unableToFind (some ⟨true, ["x"]⟩)) := by
  decide

/-! ## Atomic write -/

/-- C6: the filesystems a `Write` passes through start with the one before
the call and include the one it returns with; in each of them, whatever the
point of interruption and however much of the temporary file is written, the
final path `<base>/<c>/<r>.json` holds either the bytes it held before (or no
file, as before) or the complete new bytes, and a `Read` of the resource that
succeeds there has decoded either the bytes its file held before the `Write`
or the complete new bytes. -/
theorem atomic_write {α : Type} (codec : Codec α) (w : World) (c r : String) (v : α) :
    w.fs ∈ writeTrace codec w c r v ∧
    (Write codec w c r v).2.fs ∈ writeTrace codec w c r v ∧
    ∀ fs2 ∈ writeTrace codec w c r v,
      (content fs2 ((w.drv.dir.join [c]).join [r ++ ".json"])
          = content w.fs ((w.drv.dir.join [c]).join [r ++ ".json"]) ∨
        ∃ b, codec.marshalIndent v = some b ∧
          content fs2 ((w.drv.dir.join [c]).join [r ++ ".json"]) = some (b ++ [10])) ∧
      ∀ (d : Driver) (out : α), d.dir = w.drv.dir →
        (Read codec ⟨d, fs2⟩ c r).1 = .ok out →
        ∃ bytes, codec.unmarshal bytes = some out ∧
          (content w.fs ((w.drv.dir.join [c, r]).addExt ".json") = some bytes ∨
            ∃ b, codec.marshalIndent v = some b ∧ bytes = b ++ [10]) := by
  refine ⟨writeTrace_head codec w c r v, writeTrace_last codec w c r v, ?_⟩
  intro fs2 hfs
  constructor
  · rcases writeTrace_content codec w c r v fs2 hfs _
        (Ne.symm (addExt_ne_self _ ".tmp" (by decide))) with h | ⟨-, h⟩
    · exact Or.inl h
    · exact Or.inr h
  · intro d out hd hread
    obtain ⟨bytes, hb, hu⟩ := Read_ok codec ⟨d, fs2⟩ c r out hread
    simp only [hd] at hb
    have hcont := osReadFile_content hb
    refine ⟨bytes, hu, ?_⟩
    rcases writeTrace_content codec w c r v fs2 hfs _ (addExt_json_ne_tmp _ _) with h | ⟨-, b, h1, h2⟩
    · left
      rw [← h]
      exact hcont
    · right
      rw [hcont] at h2
      exact ⟨b, h1, Option.some.inj h2⟩

/-- C6 on overwriting the record `users/Ali`: with the temporary file half
written, the record still holds the old bytes. -/
theorem atomic_write_witness :
    content ((Write natCodec w0 "users" "Ali" 7).2.fs.set
        ((cleanString "db").join ["users", "Ali.json.tmp"]) (Node.file [9]))
        ((cleanString "db").join ["users", "Ali.json"]) = some [7, 10] :=
  (((atomic_write natCodec (Write natCodec w0 "users" "Ali" 7).2 "users" "Ali" 9).2.2
      ((Write natCodec w0 "users" "Ali" 7).2.fs.set
        ((cleanString "db").join ["users", "Ali.json.tmp"]) (Node.file [9]))
      (by decide)).1.resolve_right (by decide)).trans (by decide)

/-! ## Deleting a resource -/

/-- C3, as stated, fails for the resource name `.`: with the records `.`
and `Sara` written to `users`, `Delete("users", ".")` resolves the collection
directory and removes it with Sara's file, and `ReadAll` finds nothing. -/
theorem delete_dot_removes_collection :
    (Write natCodec w0 "users" "." 7).1 = none ∧
    (Write natCodec (Write natCodec w0 "users" "." 7).2 "users" "Sara" 8).1 = none ∧
    (Write natCodec (Write natCodec w0 "users" "." 7).2 "users" "Sara" 8).2.fs.get
      ((cleanString "db").join ["users", "Sara.json"]) = some (Node.file [8, 10]) ∧
    (Delete (Write natCodec (Write natCodec w0 "users" "." 7).2 "users" "Sara" 8).2
      "users" ".").1 = none ∧
    (Delete (Write natCodec (Write natCodec w0 "users" "." 7).2 "users" "Sara" 8).2
      "users" ".").2.fs.get ((cleanString "db").join ["users", "Sara.json"]) = none ∧
    (ReadAll (Delete (Write natCodec (Write natCodec w0 "users" "." 7).2 "users" "Sara" 8).2
      "users" ".").2 "users").1 = .error (Error.os Errno.ENOENT) := by
  decide

/-- C3, amended: when a collection with a non-empty relative name, whose
directory lies inside the tree (no `..`) with nothing beneath it, is
populated by successful writes of resources with pairwise distinct plain
names, `Delete` of one of them succeeds, removes the file
`<base>/<c>/<r>.json`, which existed, leaves every other entry of the tree
unchanged, and a following `ReadAll` returns exactly one payload for each
remaining resource, namely the bytes written for it. -/
theorem delete_resource {α : Type} (codec : Codec α) (w w1 : World) (c r : String)
    (rs : List (String × α)) (hc : c ≠ "") (hrel : isAbs c = false)
    (_hscope : (w.drv.dir.join [c]).inTree = true)
    (hempty : emptyCollection w.fs (w.drv.dir.join [c]) = true)
    (hplain : ∀ e ∈ rs, plainName e.1 = true) (hnd : (rs.map Prod.fst).Nodup)
    (hw : writeAll codec w c rs = some w1) (hr : r ∈ rs.map Prod.fst) :
    (Delete w1 c r).1 = none ∧
    (∃ b, w1.fs.get ((w.drv.dir.join [c]).child (r ++ ".json")) = some (Node.file b)) ∧
    (Delete w1 c r).2.fs.get ((w.drv.dir.join [c]).child (r ++ ".json")) = none ∧
    (∀ q, q.abs = (w.drv.dir.join [c]).abs → q.inTree = true →
      q ≠ (w.drv.dir.join [c]).child (r ++ ".json") →
      (Delete w1 c r).2.fs.get q = w1.fs.get q) ∧
    ∃ payloads, (ReadAll (Delete w1 c r).2 c).1 = .ok payloads ∧
      (payloads.map some).Perm
        ((rs.filter (fun e => decide (e.1 ≠ r))).map (fun e => encode codec e.2)) := by
  have hne : rs ≠ [] := by
    intro e
    rw [e] at hr
    cases hr
  obtain ⟨hpop, hdir, hwalk⟩ := writeAll_populated codec c rs w w1 []
    (populated_nil codec _ _ hempty) hplain (by simpa using hnd) hw
  simp only [List.nil_append] at hpop
  have hwalk := hwalk hne
  have hrp : plainName r = true := by
    obtain ⟨e, he, rfl⟩ := List.mem_map.1 hr
    exact hplain e he
  rw [← hdir] at hpop hwalk ⊢
  rw [Delete_populated codec w1 c r rs hc hrel hrp hpop hwalk hr]
  refine ⟨rfl, ?_, ?_, ?_, ?_⟩
  · obtain ⟨e, he, rfl⟩ := List.mem_map.1 hr
    obtain ⟨b, -, hb⟩ := hpop.1 e he
    exact ⟨b, hb⟩
  · exact get_removeTree_in _ _ _ (by simp [Path.isPrefixOf]) (child_comps_ne _ _)
  · intro q _ _ hq
    exact removeTree_populated_frame codec _ _ rs _ hpop q hq
  · have hpop2 := removeTree_populated codec w1.fs (w1.drv.dir.join [c]) rs r hpop
    have hwalk2 := removeTree_walk w1.fs (w1.drv.dir.join [c]) (r ++ ".json") hwalk
    have hd : (getOrCreateMutex w1.drv c).2.dir = w1.drv.dir := getOrCreateMutex_dir _ _
    have hnd2 : ((rs.filter (fun e => decide (e.1 ≠ r))).map Prod.fst).Nodup :=
      (List.filter_sublist rs).map Prod.fst |>.nodup hnd
    exact ReadAll_populated codec
      ⟨(getOrCreateMutex w1.drv c).2, w1.fs.removeTree ((w1.drv.dir.join [c]).child (r ++ ".json"))⟩
      c _ hc (by rw [hd]; exact hpop2) (by rw [hd]; exact hwalk2)
      (fun e he => hplain e (List.mem_of_mem_filter he)) hnd2

/-- C3, amended, on the collection `users` holding Ali and Sara: deleting
Ali succeeds and removes Ali's file. -/
theorem delete_resource_witness :
    (Delete (Write natCodec (Write natCodec w0 "users" "Ali" 7).2 "users" "Sara" 8).2
      "users" "Ali").1 = none ∧
    (Delete (Write natCodec (Write natCodec w0 "users" "Ali" 7).2 "users" "Sara" 8).2
      "users" "Ali").2.fs.get (((cleanString "db").join ["users"]).child ("Ali" ++ ".json"))
      = none :=
  ⟨(delete_resource natCodec w0
      (Write natCodec (Write natCodec w0 "users" "Ali" 7).2 "users" "Sara" 8).2 "users" "Ali"
      [("Ali", 7), ("Sara", 8)] (by decide) (by decide) (by decide) (by decide) (by decide)
      (by decide) (by decide) (by decide)).1,
    (delete_resource natCodec w0
      (Write natCodec (Write natCodec w0 "users" "Ali" 7).2 "users" "Sara" 8).2 "users" "Ali"
      [("Ali", 7), ("Sara", 8)] (by decide) (by decide) (by decide) (by decide) (by decide)
      (by decide) (by decide) (by decide)).2.2.1⟩

end GoDatabase
